import Mathlib

/-!
Verification development for the masyu solver (`src/python/solve.py`).

The Python program is shallowly embedded: immutable dataclasses become Lean
structures, exceptions become an `Except` error sum, dict-based grids become
rectangular `List (List CellLine)` grids whose key set is exactly the
`width x height` rectangle (as the Python dicts' key sets always are), and the
generator-driven segment walks become fueled recursions (their termination in
the source relies on consistency of the segment bookkeeping, so an explicit
fuel-exhaustion error marks the walks that the source would not complete).
Python iterates `frozenset` values in an unspecified (hash-driven) order; the
embedding fixes the canonical enum order `Up, Right, Down, Left` wherever the
source iterates over a set of directions.
-/

set_option maxHeartbeats 2000000
set_option maxRecDepth 10000

namespace Masyu

inductive Direction : Type
  | Up
  | Right
  | Down
  | Left
deriving DecidableEq, Repr

open Direction

instance : Fintype Direction :=
  ⟨⟨[Up, Right, Down, Left], by decide⟩, by intro x; cases x <;> decide⟩

def Direction.opposite : Direction → Direction
  | Up => Down
  | Right => Left
  | Down => Up
  | Left => Right

def Direction.turn_right : Direction → Direction
  | Up => Right
  | Right => Down
  | Down => Left
  | Left => Up

def Direction.turn_left : Direction → Direction
  | Up => Left
  | Right => Up
  | Down => Right
  | Left => Down

abbrev Coord := Int × Int

def Direction.move : Direction → Coord → Coord
  | Up, (x, y) => (x, y - 1)
  | Right, (x, y) => (x + 1, y)
  | Down, (x, y) => (x, y + 1)
  | Left, (x, y) => (x - 1, y)

/-- The canonical enumeration order of the four directions (the `enum` order
in the source). -/
def dirList : List Direction := [Up, Right, Down, Left]

def dirUniv : Finset Direction := Finset.univ

/-- First member of a direction set in canonical order; stands in for
Python's arbitrary-order `set.pop()` / iteration. -/
def firstDir (s : Finset Direction) : Option Direction :=
  dirList.find? (fun d => decide (d ∈ s))

/-- Both members of a (supposedly two-element) direction set, in canonical
order; stands in for Python's arbitrary-order tuple unpacking of a
2-element `frozenset`. -/
def twoDirs (s : Finset Direction) : Direction × Direction :=
  match dirList.filter (fun d => decide (d ∈ s)) with
  | [a, b] => (a, b)
  | _ => (Up, Up)

/-- Is a 2-element direction set an opposite (straight-through) pair?
Matches the source's `one.opposite() == other` test on a 2-set. -/
def isOppPair (s : Finset Direction) : Bool :=
  decide (s = ({Up, Down} : Finset Direction)) || decide (s = ({Left, Right} : Finset Direction))

/-- Errors raised at the `CellLine` level: `ContradictionException`, plus
`AssertionError` for the source's `assert` statements. -/
inductive CellErr : Type
  | contradiction
  | assertFail
deriving DecidableEq, Repr

@[ext]
structure CellLine : Type where
  is_set : Finset Direction
  cannot_set : Finset Direction

instance : DecidableEq CellLine := fun a b =>
  decidable_of_iff (a.is_set = b.is_set ∧ a.cannot_set = b.cannot_set)
    (by cases a; cases b; simp)

instance {e a : Type} [DecidableEq e] [DecidableEq a] : DecidableEq (Except e a) := fun x y =>
  match x, y with
  | .ok v, .ok w => decidable_of_iff (v = w) (by simp)
  | .error v, .error w => decidable_of_iff (v = w) (by simp)
  | .ok _, .error _ => isFalse (by simp)
  | .error _, .ok _ => isFalse (by simp)

instance {a : Type} [DecidableEq a] : DecidableEq (Option a) := fun x y =>
  match x, y with
  | some v, some w => decidable_of_iff (v = w) (by simp)
  | none, none => isTrue rfl
  | some _, none => isFalse (fun h => Option.noConfusion h)
  | none, some _ => isFalse (fun h => Option.noConfusion h)

namespace CellLine

/-- `CellLine.set_direction` from the source. -/
def set_direction (c : CellLine) (d : Direction) : Except CellErr CellLine :=
  if d ∈ c.is_set then .ok c
  else if d ∈ c.cannot_set then .error .contradiction
  else
    let s := insert d c.is_set
    if s.card = 2 then .ok ⟨s, dirUniv \ s⟩
    else if c.cannot_set.card = 2 then .ok ⟨dirUniv \ c.cannot_set, c.cannot_set⟩
    else .ok ⟨s, c.cannot_set⟩

/-- `CellLine.disallow_direction` from the source. -/
def disallow_direction (c : CellLine) (d : Direction) : Except CellErr CellLine :=
  if d ∈ c.cannot_set then .ok c
  else if d ∈ c.is_set then .error .contradiction
  else
    let n := insert d c.cannot_set
    if n.card = 2 ∧ c.is_set.card = 1 then .ok ⟨dirUniv \ n, n⟩
    else if n.card = 3 then .ok ⟨c.is_set, dirUniv⟩
    else .ok ⟨c.is_set, n⟩

/-- `CellLine.get_through` from the source. -/
def get_through (c : CellLine) : Except CellErr CellLine :=
  if c.is_set.card = 2 then
    if isOppPair c.is_set then .ok c else .error .contradiction
  else if c.is_set.card = 1 then
    (match firstDir c.is_set with
     | some d => c.set_direction d.opposite
     | none => .error .assertFail)
  else if c.is_set.card ≠ 0 then .error .assertFail
  else if c.cannot_set.card = 1 then
    (match firstDir c.cannot_set with
     | some d => .ok ⟨dirUniv \ {d, d.opposite}, {d, d.opposite}⟩
     | none => .error .assertFail)
  else if c.cannot_set.card = 2 then
    let s := dirUniv \ c.cannot_set
    if isOppPair s then .ok ⟨s, c.cannot_set⟩ else .error .contradiction
  else if c.cannot_set.card = 4 then .error .contradiction
  else if c.cannot_set.card = 0 then .ok c
  else .error .assertFail

/-- `CellLine.get_bent` from the source.  Note that (faithfully to the
source) the `cannot_set` case analysis is reached for any `is_set`
cardinality other than 1 and 2. -/
def get_bent (c : CellLine) : Except CellErr CellLine :=
  if c.is_set.card = 2 then
    if isOppPair c.is_set then .error .contradiction else .ok c
  else if c.is_set.card = 1 then
    (match firstDir c.is_set with
     | some d => c.disallow_direction d.opposite
     | none => .error .assertFail)
  else if c.cannot_set.card = 1 then
    (match firstDir c.cannot_set with
     | some d => c.set_direction d.opposite
     | none => .error .assertFail)
  else if c.cannot_set.card = 2 then
    let s := dirUniv \ c.cannot_set
    if isOppPair s then .error .contradiction else .ok ⟨s, c.cannot_set⟩
  else if c.cannot_set.card = 4 then .error .contradiction
  else if c.cannot_set.card = 0 then .ok c
  else .error .assertFail

def is_done (c : CellLine) : Bool :=
  c.is_set.card + c.cannot_set.card = 4

def could_set (c : CellLine) : Finset Direction :=
  (dirUniv \ c.is_set) \ c.cannot_set

/-- `CellLine.other_out` from the source: the member of `is_set - {d}`
if any (canonical order stands in for the arbitrary `set.pop()`). -/
def other_out (c : CellLine) (d : Direction) : Option Direction :=
  firstDir (c.is_set.erase d)

end CellLine

example : CellLine.set_direction ⟨∅, ∅⟩ Up = .ok ⟨{Up}, ∅⟩ := by decide
example : CellLine.set_direction ⟨{Up}, ∅⟩ Right = .ok ⟨{Up, Right}, {Down, Left}⟩ := by decide
example : CellLine.disallow_direction ⟨∅, {Up, Right}⟩ Down = .ok ⟨∅, dirUniv⟩ := by decide
example : CellLine.get_through ⟨{Up}, ∅⟩ = .ok ⟨{Up, Down}, {Right, Left}⟩ := by decide
example : CellLine.get_bent ⟨{Up, Down}, ∅⟩ = .error .contradiction := by decide

/-- `LineSegment` from the source (`end` is a Lean keyword, so the field is
named `end_`). -/
structure LineSegment : Type where
  start : Coord
  start_direction : Direction
  end_ : Coord
  end_direction : Direction
  contains : Finset Coord

instance : DecidableEq LineSegment := fun a b =>
  decidable_of_iff (a.start = b.start ∧ a.start_direction = b.start_direction ∧
      a.end_ = b.end_ ∧ a.end_direction = b.end_direction ∧ a.contains = b.contains)
    (by cases a; cases b; simp)

/-- `LineSegment.other_end` from the source. -/
def LineSegment.other_end (s : LineSegment) (c : Coord) : Coord × Direction :=
  if c = s.start then (s.end_, s.end_direction) else (s.start, s.start_direction)

/-- The two pearl colors (the `WHITE` / `BLACK` sentinels of the source). -/
inductive Circle : Type
  | white
  | black
deriving DecidableEq, Repr

/-- `Board` from the source.  `cell_lines` is stored as a row-major
rectangular grid (the Python dict's key set is always exactly the grid).
`circles` is an association list in insertion order (Python dicts iterate
in insertion order). -/
structure Board : Type where
  width : Int
  height : Int
  circles : List (Coord × Circle)
  cell_lines : List (List CellLine)
  line_segments : List LineSegment

instance : DecidableEq Board := fun a b =>
  decidable_of_iff (a.width = b.width ∧ a.height = b.height ∧ a.circles = b.circles ∧
      a.cell_lines = b.cell_lines ∧ a.line_segments = b.line_segments)
    (by cases a; cases b; simp)

/-- Cell lookup in a grid, mirroring `cell_lines[x, y]`: the dict's key set
is exactly the `width x height` rectangle, so off-grid lookups are `none`
(a `KeyError` in the source). -/
def clAt (w h : Int) (cl : List (List CellLine)) (c : Coord) : Option CellLine :=
  if 0 ≤ c.1 ∧ c.1 < w ∧ 0 ≤ c.2 ∧ c.2 < h then
    (cl.get? c.2.toNat).bind (fun row => row.get? c.1.toNat)
  else none

def Board.cellAt (b : Board) (c : Coord) : Option CellLine :=
  clAt b.width b.height b.cell_lines c

/-- Board equality as Python's `==` sees it: `line_segments` is declared
with `cmp=False` in the source and so is ignored. -/
def Board.pyEq (a b : Board) : Bool :=
  decide (a.width = b.width) && decide (a.height = b.height) &&
    decide (a.circles = b.circles) && decide (a.cell_lines = b.cell_lines)

/-- The error/signal sum: `ContradictionException`, `SolvedException`
(carrying the solved board), `LoopException` (carrying the loop coordinate
set), Python `KeyError`, Python `AssertionError`, and fuel exhaustion of an
embedded walk. -/
inductive Err : Type
  | contradiction
  | solved (board : Board)
  | loopE (coords : Finset Coord)
  | keyErr
  | assertFail
  | fuelOut

instance : DecidableEq Err := fun a b =>
  match a, b with
  | .contradiction, .contradiction => isTrue rfl
  | .solved x, .solved y => decidable_of_iff (x = y) (by simp)
  | .loopE x, .loopE y => decidable_of_iff (x = y) (by simp)
  | .keyErr, .keyErr => isTrue rfl
  | .assertFail, .assertFail => isTrue rfl
  | .fuelOut, .fuelOut => isTrue rfl
  | .contradiction, .solved _ | .contradiction, .loopE _ | .contradiction, .keyErr
  | .contradiction, .assertFail | .contradiction, .fuelOut
  | .solved _, .contradiction | .solved _, .loopE _ | .solved _, .keyErr
  | .solved _, .assertFail | .solved _, .fuelOut
  | .loopE _, .contradiction | .loopE _, .solved _ | .loopE _, .keyErr
  | .loopE _, .assertFail | .loopE _, .fuelOut
  | .keyErr, .contradiction | .keyErr, .solved _ | .keyErr, .loopE _
  | .keyErr, .assertFail | .keyErr, .fuelOut
  | .assertFail, .contradiction | .assertFail, .solved _ | .assertFail, .loopE _
  | .assertFail, .keyErr | .assertFail, .fuelOut
  | .fuelOut, .contradiction | .fuelOut, .solved _ | .fuelOut, .loopE _
  | .fuelOut, .keyErr | .fuelOut, .assertFail => isFalse (fun h => Err.noConfusion h)

def liftCell : Except CellErr CellLine → Except Err CellLine
  | .ok c => .ok c
  | .error .contradiction => .error .contradiction
  | .error .assertFail => .error .assertFail

/-- `Board._edges_at` from the source, as a free function of the
dimensions. -/
def edges_at (w h : Int) (x y : Int) : Finset Direction :=
  (if x = 0 then {Direction.Left} else ∅) ∪ (if y = 0 then {Direction.Up} else ∅) ∪
    (if y = h - 1 then {Direction.Down} else ∅) ∪ (if x = w - 1 then {Direction.Right} else ∅)

/-- The grid coordinates in the construction/iteration order of the source
(`for y in range(height) for x in range(width)`). -/
def gridCoords (w h : Int) : List Coord :=
  (List.range h.toNat).flatMap (fun y =>
    (List.range w.toNat).map (fun x => (Int.ofNat x, Int.ofNat y)))

/-- A freshly constructed `Board` (the `attr` defaults: every cell starts
with nothing set and the off-grid directions pre-excluded; segment discovery
on an all-empty grid yields no segments). -/
def initBoard (w h : Int) (circles : List (Coord × Circle)) : Board :=
  ⟨w, h, circles,
    (List.range h.toNat).map (fun y =>
      (List.range w.toNat).map (fun x => ⟨∅, edges_at w h (Int.ofNat x) (Int.ofNat y)⟩)),
    []⟩

/-! ## Segment tracker (`_loop_path`, `_discover_line_segments`,
`_extend_line_segments`)

The `_loop_path` generator is fused into its consumers: each recursive step
moves one cell, yields `(pos, entering-direction)`, runs the consumer's
body, and continues with the cell's `other_out` direction.  The recursions
are fueled; `Err.fuelOut` marks a walk that the source's bookkeeping
invariants are supposed to keep finite. -/

/-- The backward walk of `_discover_line_segments`, which checks for a
closed loop before adding each coordinate. -/
def discoverBack (w h : Int) (cl : List (List CellLine)) :
    Nat → Coord → Direction → Finset Coord → Except Err (Coord × Direction × Finset Coord)
  | 0, _, _, _ => .error .fuelOut
  | fuel + 1, c, d, loop =>
    let pos := d.move c
    let d1 := d.opposite
    if pos ∈ loop then .error (.loopE loop)
    else
      let loop2 := insert pos loop
      match clAt w h cl pos with
      | none => .error .keyErr
      | some cell =>
        match cell.other_out d1 with
        | none => .ok (pos, d1, loop2)
        | some d2 => discoverBack w h cl fuel pos d2 loop2

/-- The forward walk of `_discover_line_segments` (no loop check). -/
def discoverForward (w h : Int) (cl : List (List CellLine)) :
    Nat → Coord → Direction → Finset Coord → Except Err (Coord × Direction × Finset Coord)
  | 0, _, _, _ => .error .fuelOut
  | fuel + 1, c, d, loop =>
    let pos := d.move c
    let d1 := d.opposite
    let loop2 := insert pos loop
    match clAt w h cl pos with
    | none => .error .keyErr
    | some cell =>
      match cell.other_out d1 with
      | none => .ok (pos, d1, loop2)
      | some d2 => discoverForward w h cl fuel pos d2 loop2

def discoverGo (w h : Int) (cl : List (List CellLine)) (fuel : Nat) :
    List Coord → Finset Coord → List LineSegment → Except Err (List LineSegment)
  | [], _, acc => .ok acc.reverse
  | c :: rest, seen, acc =>
    match clAt w h cl c with
    | none => .error .keyErr
    | some cell =>
      if c ∈ seen ∨ cell.is_set = ∅ then discoverGo w h cl fuel rest seen acc
      else if cell.is_set.card = 1 then
        (match firstDir cell.is_set with
         | none => .error .assertFail
         | some d =>
           match discoverForward w h cl fuel c d {c} with
           | .error e => .error e
           | .ok (stop, fd, loop) =>
             discoverGo w h cl fuel rest (seen ∪ loop) (⟨c, d, stop, fd, loop⟩ :: acc))
      else if cell.is_set.card = 2 then
        let (fwd, back) := twoDirs cell.is_set
        match discoverBack w h cl fuel c back {c} with
        | .error e => .error e
        | .ok (start, bd, loop) =>
          match discoverForward w h cl fuel c fwd loop with
          | .error e => .error e
          | .ok (stop, fd, loop2) =>
            discoverGo w h cl fuel rest (seen ∪ loop2) (⟨start, bd, stop, fd, loop2⟩ :: acc)
      else .error .assertFail

/-- `_discover_line_segments` from the source. -/
def discover_line_segments (w h : Int) (cl : List (List CellLine)) (fuel : Nat)
    (seen : Finset Coord) : Except Err (List LineSegment) :=
  discoverGo w h cl fuel (gridCoords w h) seen []

/-- `coord_lookup` of `_extend_line_segments`: dict comprehension where later
entries overwrite earlier ones, hence the reversed search. -/
def segLookup (segs : List LineSegment) (c : Coord) : Option LineSegment :=
  segs.reverse.find? (fun s => decide (s.start = c) || decide (s.end_ = c))

/-- The follow-one-end walk of `_extend_line_segments`, including segment
merging (the `SwappableIterator.swap`). -/
def extendWalk (w h : Int) (cl : List (List CellLine)) (segs : List LineSegment)
    (orig : LineSegment) :
    Nat → Coord → Direction → Finset Coord → List LineSegment →
      Except Err (Coord × Direction × Finset Coord × List LineSegment)
  | 0, _, _, _, _ => .error .fuelOut
  | fuel + 1, c, d, loop, seen =>
    let pos := d.move c
    let d1 := d.opposite
    match segLookup segs pos with
    | some mseg =>
      if mseg = orig then .error (.loopE loop)
      else
        let seen2 := if mseg ∈ seen then seen else seen ++ [mseg]
        let loop2 := loop ∪ mseg.contains
        let (c2, d2) := mseg.other_end pos
        match clAt w h cl c2 with
        | none => .error .keyErr
        | some cell2 =>
          match cell2.other_out d2 with
          | none => .ok (c2, d2, loop2, seen2)
          | some mv => extendWalk w h cl segs orig fuel c2 mv loop2 seen2
    | none =>
      let loop2 := insert pos loop
      match clAt w h cl pos with
      | none => .error .keyErr
      | some cell =>
        match cell.other_out d1 with
        | none => .ok (pos, d1, loop2, seen)
        | some d2 => extendWalk w h cl segs orig fuel pos d2 loop2 seen

/-- One `segment_ends` iteration of `_extend_line_segments`: returns the
updated end (if the walk ran), the accumulated loop set and the consumed
segments. -/
def extendSide (w h : Int) (cl : List (List CellLine)) (segs : List LineSegment)
    (fuel : Nat) (orig : LineSegment) (coord : Coord) (sdir : Direction)
    (loop : Finset Coord) (seen : List LineSegment) :
    Except Err (Option (Coord × Direction) × Finset Coord × List LineSegment) :=
  match clAt w h cl coord with
  | none => .error .keyErr
  | some cell =>
    if cell.is_set.card = 1 then .ok (none, loop, seen)
    else
      match cell.other_out sdir with
      | none => .error .assertFail
      | some nd =>
        match extendWalk w h cl segs orig fuel coord nd loop seen with
        | .error e => .error e
        | .ok (c2, d2, loop2, seen2) => .ok (some (c2, d2), loop2, seen2)

def extendGo (w h : Int) (cl : List (List CellLine)) (segs : List LineSegment)
    (fuel : Nat) :
    List LineSegment → List LineSegment → List LineSegment → Except Err (List LineSegment)
  | [], _, acc => .ok acc.reverse
  | seg :: rest, seen, acc =>
    if seg ∈ seen then extendGo w h cl segs fuel rest seen acc
    else
      let seen1 := seen ++ [seg]
      match extendSide w h cl segs fuel seg seg.start seg.start_direction seg.contains seen1 with
      | .error e => .error e
      | .ok (sChange, loop1, seen2) =>
        match extendSide w h cl segs fuel seg seg.end_ seg.end_direction loop1 seen2 with
        | .error e => .error e
        | .ok (eChange, loop2, seen3) =>
          let newSeg :=
            if sChange.isSome || eChange.isSome then
              LineSegment.mk ((sChange.map (fun p => p.1)).getD seg.start)
                ((sChange.map (fun p => p.2)).getD seg.start_direction)
                ((eChange.map (fun p => p.1)).getD seg.end_)
                ((eChange.map (fun p => p.2)).getD seg.end_direction)
                loop2
            else seg
          extendGo w h cl segs fuel rest seen3 (newSeg :: acc)

/-- `_extend_line_segments` from the source. -/
def extend_line_segments (w h : Int) (cl : List (List CellLine)) (fuel : Nat)
    (segs : List LineSegment) : Except Err (List LineSegment) :=
  extendGo w h cl segs fuel segs [] []

def trackFuel (b : Board) : Nat := 4 * (b.width.toNat * b.height.toNat) + 8

/-- `LoopException.validate_solved` from the source: raises a contradiction
unless every circle coordinate lies in the loop set. -/
def validate_solved (loop : Finset Coord) (circles : List (Coord × Circle)) :
    Except Err Unit :=
  if circles.all (fun p => decide (p.1 ∈ loop)) then .ok () else .error .contradiction

/-- The combined segment update performed inside `Board.evolve`'s `try`
block: extend the known segments, then discover new ones. -/
def trackSegments (b : Board) (cl : List (List CellLine)) : Except Err (List LineSegment) :=
  match extend_line_segments b.width b.height cl (trackFuel b) b.line_segments with
  | .error e => .error e
  | .ok segs =>
    let seen := segs.foldl (fun a s => a ∪ s.contains) (∅ : Finset Coord)
    match discover_line_segments b.width b.height cl (trackFuel b) seen with
    | .error e => .error e
    | .ok more => .ok (segs ++ more)

/-- `Board.evolve` from the source: update the segment index; a
`LoopException` is turned into `Solved` (if every circle is on the loop)
or a plain contradiction. -/
def Board.evolve (b : Board) (cl : List (List CellLine)) : Except Err Board :=
  match trackSegments b cl with
  | .error (.loopE L) =>
    (match validate_solved L b.circles with
     | .error e => .error e
     | .ok _ => .error (.solved ⟨b.width, b.height, b.circles, cl, []⟩))
  | .error e => .error e
  | .ok segs => .ok ⟨b.width, b.height, b.circles, cl, segs⟩

/-! ## Propagation (`Board._propagate_change`) -/

abbrev ChangeMap := List (Coord × CellLine)

def alFind? : ChangeMap → Coord → Option CellLine
  | [], _ => none
  | p :: rest, c => if p.1 = c then some p.2 else alFind? rest c

/-- `changes[m] = new_cell`: replace in place when the key exists, else
append (Python dict update order). -/
def alInsert : ChangeMap → Coord → CellLine → ChangeMap
  | [], c, v => [(c, v)]
  | p :: rest, c, v => if p.1 = c then (c, v) :: rest else p :: alInsert rest c v

/-- `cell_lookup = ChainMap(changes, self.cell_lines)`. -/
def lookupCM (b : Board) (ch : ChangeMap) (c : Coord) : Option CellLine :=
  match alFind? ch c with
  | some v => some v
  | none => b.cellAt c

/-- One confirmed-direction propagation step: the unguarded neighbor lookup
(`KeyError` when it misses) followed by `set_direction` of the opposite. -/
def stepSet (b : Board) (src : Coord) (d : Direction) (ch : ChangeMap) (q : List Coord) :
    Except Err (ChangeMap × List Coord) :=
  let m := d.move src
  match lookupCM b ch m with
  | none => .error .keyErr
  | some old =>
    match liftCell (old.set_direction d.opposite) with
    | .error e => .error e
    | .ok new => if new = old then .ok (ch, q) else .ok (alInsert ch m new, q ++ [m])

/-- One excluded-direction propagation step: the guarded (`dict.get`)
neighbor lookup followed by `disallow_direction` of the opposite. -/
def stepUnset (b : Board) (src : Coord) (d : Direction) (ch : ChangeMap) (q : List Coord) :
    Except Err (ChangeMap × List Coord) :=
  let m := d.move src
  match lookupCM b ch m with
  | none => .ok (ch, q)
  | some old =>
    match liftCell (old.disallow_direction d.opposite) with
    | .error e => .error e
    | .ok new => if new = old then .ok (ch, q) else .ok (alInsert ch m new, q ++ [m])

def foldDirs (step : Direction → ChangeMap → List Coord → Except Err (ChangeMap × List Coord)) :
    List Direction → ChangeMap → List Coord → Except Err (ChangeMap × List Coord)
  | [], ch, q => .ok (ch, q)
  | d :: ds, ch, q =>
    match step d ch q with
    | .error e => .error e
    | .ok (ch2, q2) => foldDirs step ds ch2 q2

/-- The breadth-first worklist of `_propagate_change`. -/
def propGo (b : Board) : Nat → List Coord → ChangeMap → Except Err ChangeMap
  | 0, _, _ => .error .fuelOut
  | _ + 1, [], ch => .ok ch
  | fuel + 1, c :: rest, ch =>
    match alFind? ch c with
    | none => .error .assertFail
    | some cell =>
      match foldDirs (stepSet b c) (dirList.filter (fun d => decide (d ∈ cell.is_set))) ch rest with
      | .error e => .error e
      | .ok (ch2, q2) =>
        match foldDirs (stepUnset b c) (dirList.filter (fun d => decide (d ∈ cell.cannot_set))) ch2 q2 with
        | .error e => .error e
        | .ok (ch3, q3) => propGo b fuel q3 ch3

def propFuel (b : Board) : Nat := 8 * (b.width.toNat * b.height.toNat) + 8

/-- `dict(cell_lookup)`: flatten the overlay back into a rectangular grid
(the overlay's keys are always grid keys). -/
def flattenOverlay (b : Board) (ch : ChangeMap) : List (List CellLine) :=
  (List.range b.height.toNat).map (fun y =>
    (List.range b.width.toNat).map (fun x =>
      match lookupCM b ch (Int.ofNat x, Int.ofNat y) with
      | some c => c
      | none => ⟨∅, ∅⟩))

/-- `Board._propagate_change` from the source. -/
def Board.propagate_change (b : Board) (changes : ChangeMap) : Except Err Board :=
  match propGo b (propFuel b) (changes.map (fun p => p.1)) changes with
  | .error e => .error e
  | .ok ch => b.evolve (flattenOverlay b ch)

/-! ## The four Board mutators -/

def Board.set_direction (b : Board) (x y : Int) (d : Direction) : Except Err Board :=
  match b.cellAt (x, y) with
  | none => .error .keyErr
  | some old =>
    match liftCell (old.set_direction d) with
    | .error e => .error e
    | .ok new => if new = old then .ok b else b.propagate_change [((x, y), new)]

def Board.disallow_direction (b : Board) (x y : Int) (d : Direction) : Except Err Board :=
  match b.cellAt (x, y) with
  | none => .error .keyErr
  | some old =>
    match liftCell (old.disallow_direction d) with
    | .error e => .error e
    | .ok new => if new = old then .ok b else b.propagate_change [((x, y), new)]

def Board.set_through (b : Board) (x y : Int) : Except Err Board :=
  match b.cellAt (x, y) with
  | none => .error .keyErr
  | some old =>
    match liftCell old.get_through with
    | .error e => .error e
    | .ok new => if new = old then .ok b else b.propagate_change [((x, y), new)]

def Board.set_bent (b : Board) (x y : Int) : Except Err Board :=
  match b.cellAt (x, y) with
  | none => .error .keyErr
  | some old =>
    match liftCell old.get_bent with
    | .error e => .error e
    | .ok new => if new = old then .ok b else b.propagate_change [((x, y), new)]


/-! ## Deduction rules (`apply_white`, `apply_black`) and the fixpoint
driver (`solve_known_constraints`) -/

/-- `does_raise(ContradictionException)` / `contextlib.suppress`: swallow a
contradiction (returning `none`), let every other signal through. -/
def catchContra {a : Type} : Except Err a → Except Err (Option a)
  | .ok v => .ok (some v)
  | .error .contradiction => .ok none
  | .error e => .error e

/-- `apply_white` from the source. -/
def apply_white (b : Board) (x y : Int) : Except Err Board :=
  match b.set_through x y with
  | .error e => .error e
  | .ok b1 =>
    match b1.cellAt (x, y) with
    | none => .error .keyErr
    | some cell =>
      if cell.is_set.card ≠ 2 then .ok b1
      else
        let lr := twoDirs cell.is_set
        let lc := lr.1.move (x, y)
        match catchContra (b1.set_bent lc.1 lc.2) with
        | .error e => .error e
        | .ok oleft =>
          let rc := lr.2.move (x, y)
          match catchContra (b1.set_bent rc.1 rc.2) with
          | .error e => .error e
          | .ok oright =>
            match oleft, oright with
            | none, none => .error .contradiction
            | none, some bend_right => .ok bend_right
            | some bend_left, none => .ok bend_left
            | some _, some _ => .ok b1

/-- `set_black_leg` from the source. -/
def set_black_leg (b : Board) (x y : Int) (d : Direction) : Except Err Board :=
  let m := d.move (x, y)
  match b.set_direction x y d with
  | .error e => .error e
  | .ok b2 => b2.set_through m.1 m.2

/-- The extend-existing-lines loop of `apply_black`. -/
def blackExtend (x y : Int) : List Direction → Board → Except Err Board
  | [], b => .ok b
  | d :: ds, b =>
    let m := d.move (x, y)
    match b.set_through m.1 m.2 with
    | .error e => .error e
    | .ok b2 => blackExtend x y ds b2

/-- The could-this-leg-work probe loop of `apply_black` (suppresses only
contradictions; anything else propagates). -/
def blackProbe (b : Board) (x y : Int) : List Direction → List Direction → Except Err (List Direction)
  | [], acc => .ok acc.reverse
  | d :: ds, acc =>
    match catchContra (set_black_leg b x y d) with
    | .error e => .error e
    | .ok none => blackProbe b x y ds acc
    | .ok (some _) => blackProbe b x y ds (d :: acc)

/-- The commit loop of `apply_black`: a viable direction whose opposite is
not viable is mandatory. -/
def blackCommit (x y : Int) (could : List Direction) : List Direction → Board → Except Err Board
  | [], b => .ok b
  | d :: ds, b =>
    if d.opposite ∈ could then blackCommit x y could ds b
    else
      match set_black_leg b x y d with
      | .error e => .error e
      | .ok b2 => blackCommit x y could ds b2

/-- `apply_black` from the source.  `cell` is captured right after the bend,
before the extension loop, exactly as in the source. -/
def apply_black (b : Board) (x y : Int) : Except Err Board :=
  match b.set_bent x y with
  | .error e => .error e
  | .ok b1 =>
    match b1.cellAt (x, y) with
    | none => .error .keyErr
    | some cell =>
      match blackExtend x y (dirList.filter (fun d => decide (d ∈ cell.is_set))) b1 with
      | .error e => .error e
      | .ok b2 =>
        if cell.is_done then .ok b2
        else
          match blackProbe b2 x y (dirList.filter (fun d => decide (d ∈ cell.could_set))) [] with
          | .error e => .error e
          | .ok could => blackCommit x y could could b2

/-- One full pass of the `solve_known_constraints` loop body: apply the
per-pearl rule to every pearl in insertion order. -/
def passGo : List (Coord × Circle) → Board → Except Err Board
  | [], b => .ok b
  | (c, col) :: rest, b =>
    match (match col with
           | .white => apply_white b c.1 c.2
           | .black => apply_black b c.1 c.2) with
    | .error e => .error e
    | .ok b2 => passGo rest b2

def solvePass (b : Board) : Except Err Board := passGo b.circles b

/-- The total information slack of a board: the fixpoint driver's
termination measure (each cell can gain at most 8 direction facts). -/
def slackSum (b : Board) : Nat :=
  ((gridCoords b.width b.height).map
    (fun c =>
      8 - (((b.cellAt c).getD ⟨∅, ∅⟩).is_set.card +
        ((b.cellAt c).getD ⟨∅, ∅⟩).cannot_set.card))).sum

def solveKCGo : Nat → Board → Except Err Board
  | 0, _ => .error .fuelOut
  | fuel + 1, b =>
    match solvePass b with
    | .error e => .error e
    | .ok b2 => if b.pyEq b2 then .ok b2 else solveKCGo fuel b2

/-- `solve_known_constraints` from the source: iterate full passes until a
pass changes nothing (Python `==`, which ignores `line_segments`).  The
`while` loop is run with the fuel that the lattice measure bounds. -/
def solve_known_constraints (b : Board) : Except Err Board :=
  solveKCGo (slackSum b + 1) b

/-! ## Search tree (`_spot_direction_options`, `get_possibility_list`,
`Lookahead` / `PossibilityPair`, `explore` / `expand`, `solve`) -/

/-- `_spot_direction_options` from the source: the two hypothetical
fixpoints, each with only contradictions suppressed. -/
def spot_direction_options (b : Board) (x y : Int) (d : Direction) : Except Err (List Board) :=
  match catchContra ((b.set_direction x y d).bind solve_known_constraints) with
  | .error e => .error e
  | .ok o1 =>
    match catchContra ((b.disallow_direction x y d).bind solve_known_constraints) with
    | .error e => .error e
    | .ok o2 => .ok (o1.toList ++ o2.toList)

/-- The outcome of `get_possibility_list`: either a single certain board, or
a list of (yes-board, no-board) possibility pairs (`[]` doubles as the
source's empty list, i.e. a dead end). -/
inductive PossResult : Type
  | certain (b : Board)
  | pairs (l : List (Board × Board))

instance : DecidableEq PossResult := fun a b =>
  match a, b with
  | .certain x, .certain y => decidable_of_iff (x = y) (by simp)
  | .pairs x, .pairs y => decidable_of_iff (x = y) (by simp)
  | .certain _, .pairs _ => isFalse (fun h => PossResult.noConfusion h)
  | .pairs _, .certain _ => isFalse (fun h => PossResult.noConfusion h)

def maskDirs : Finset Direction := {Direction.Right, Direction.Down}

/-- The scan order of `get_possibility_list`: row-major over cells, masked
directions in canonical order. -/
def eligiblePairs (b : Board) : List (Coord × Direction) :=
  (gridCoords b.width b.height).flatMap (fun c =>
    match b.cellAt c with
    | some cell =>
      (dirList.filter (fun d => decide (d ∈ cell.could_set ∧ d ∈ maskDirs))).map (fun d => (c, d))
    | none => [])

def possGo (b : Board) : List (Coord × Direction) → List (Board × Board) → Except Err PossResult
  | [], acc => .ok (.pairs acc.reverse)
  | (c, d) :: rest, acc =>
    match spot_direction_options b c.1 c.2 d with
    | .error e => .error e
    | .ok [b1] => .ok (.certain b1)
    | .ok [] => .ok (.pairs [])
    | .ok [b1, b2] => possGo b rest ((b1, b2) :: acc)
    | .ok _ => .error .assertFail

/-- `get_possibility_list` from the source. -/
def get_possibility_list (b : Board) : Except Err PossResult :=
  possGo b (eligiblePairs b) []

/-- The search tree: a `Lookahead` is a board plus either `none`
(`UNEXPLORED`) or its list of `PossibilityPair`s, each a yes/no pair of
child `Lookahead`s. -/
inductive Tree : Type
  | node (board : Board) (poss : Option (List (Tree × Tree)))

def Tree.board : Tree → Board
  | .node b _ => b

/-- Breadth-first search for the first `UNEXPLORED` node (`explore`'s queue),
returning its path: a list of (pair index, yes-side?) steps.  Fueled. -/
def bfsFind : Nat → List (List (Nat × Bool) × Tree) → Option (List (Nat × Bool))
  | 0, _ => none
  | _ + 1, [] => none
  | _ + 1, (path, .node _ none) :: _ => some path
  | fuel + 1, (path, .node _ (some ps)) :: rest =>
    bfsFind fuel
      (rest ++ ps.enum.flatMap (fun ip =>
        [(path ++ [(ip.1, true)], ip.2.1), (path ++ [(ip.1, false)], ip.2.2)]))

def findUnexplored (fuel : Nat) (t : Tree) : Option (List (Nat × Bool)) :=
  bfsFind fuel [([], t)]

def mkPair (p : Board × Board) : Tree × Tree :=
  (.node p.1 none, .node p.2 none)

/-- `expand` from the source, as a functional rewrite at a path.  The
result `none` signals "this node contradicted" to the node two levels up
(the grandparent `Lookahead`), which is then replaced wholesale by the
sibling - exactly the `Ref`-surgery of the source.  At the root, `none`
becomes the root-contradiction. -/
def expandAt : Tree → List (Nat × Bool) → Except Err (Option Tree)
  | .node b _, [] =>
    (match get_possibility_list b with
     | .error e => .error e
     | .ok (.certain b2) => .ok (some (.node b2 none))
     | .ok (.pairs []) => .ok none
     | .ok (.pairs ps) => .ok (some (.node b (some (ps.map mkPair)))))
  | .node b (some ps), (i, side) :: rest =>
    (match ps.get? i with
     | none => .error .assertFail
     | some pr =>
       match expandAt (if side then pr.1 else pr.2) rest with
       | .error e => .error e
       | .ok (some c2) =>
         .ok (some (.node b (some (ps.set i (if side then (c2, pr.2) else (pr.1, c2))))))
       | .ok none => .ok (some (if side then pr.2 else pr.1)))
  | .node _ none, _ :: _ => .error .assertFail

/-- The `while explore(root)` loop of `solve`, with the `SolvedException`
handler of `solve` folded in (nothing below it catches `Solved`). -/
def solveLoop : Nat → Tree → Except Err (Option Board)
  | 0, _ => .error .fuelOut
  | fuel + 1, t =>
    match findUnexplored (fuel + 1) t with
    | none => .ok none
    | some path =>
      match expandAt t path with
      | .error (.solved s) => .ok (some s)
      | .error e => .error e
      | .ok none => .error .contradiction
      | .ok (some t2) => solveLoop fuel t2

/-- `solve` from the source: run the fixpoint on the root, then explore; a
`SolvedException` raised anywhere is first caught here and its board
returned; an uncaught contradiction (root dead end) escapes. -/
def solve (fuel : Nat) (b : Board) : Except Err (Option Board) :=
  match solve_known_constraints b with
  | .error (.solved s) => .ok (some s)
  | .error e => .error e
  | .ok r => solveLoop fuel (.node r none)

/-! ## One-shot pattern pre-pass (`solve_initial_patterns`) -/

def circlesGet (b : Board) (c : Coord) : Option Circle :=
  (b.circles.find? (fun p => decide (p.1 = c))).map (fun p => p.2)

/-- `_solve_three_consecutive_whites` from the source. -/
def solve_three_consecutive_whites (b : Board) (c : Coord) : Except Err Board :=
  if circlesGet b (c.1 + 1, c.2) = some Circle.white ∧ circlesGet b (c.1 + 2, c.2) = some Circle.white then
    match b.set_direction c.1 c.2 Direction.Up with
    | .error e => .error e
    | .ok b1 =>
      match b1.set_through c.1 c.2 with
      | .error e => .error e
      | .ok b2 =>
        match b2.set_through (c.1 + 1) c.2 with
        | .error e => .error e
        | .ok b3 => b3.set_through (c.1 + 2) c.2
  else if circlesGet b (c.1, c.2 + 1) = some Circle.white ∧ circlesGet b (c.1, c.2 + 2) = some Circle.white then
    match b.set_direction c.1 c.2 Direction.Right with
    | .error e => .error e
    | .ok b1 =>
      match b1.set_through c.1 c.2 with
      | .error e => .error e
      | .ok b2 =>
        match b2.set_through c.1 (c.2 + 1) with
        | .error e => .error e
        | .ok b3 => b3.set_through c.1 (c.2 + 2)
  else .ok b

/-- `_solve_adjacent_blacks` from the source. -/
def solve_adjacent_blacks (b : Board) (c : Coord) : Except Err Board :=
  match (if circlesGet b (c.1 + 1, c.2) = some Circle.black then
           match set_black_leg b c.1 c.2 Direction.Left with
           | .error e => .error e
           | .ok t => set_black_leg t (c.1 + 1) c.2 Direction.Right
         else .ok b : Except Err Board) with
  | .error e => .error e
  | .ok b1 =>
    if circlesGet b1 (c.1, c.2 + 1) = some Circle.black then
      match set_black_leg b1 c.1 c.2 Direction.Up with
      | .error e => .error e
      | .ok t => set_black_leg t c.1 (c.2 + 1) Direction.Down
    else .ok b1

def overlongGo (c : Coord) : List Direction → Board → Except Err Board
  | [], b => .ok b
  | d :: ds, b =>
    let fw := d.move (d.move c)
    let nw := d.move fw
    if circlesGet b fw = some Circle.white ∧ circlesGet b nw = some Circle.white then
      match set_black_leg b c.1 c.2 d.opposite with
      | .error e => .error e
      | .ok b2 => overlongGo c ds b2
    else overlongGo c ds b

/-- `_solve_overlong_leg` from the source. -/
def solve_overlong_leg (b : Board) (c : Coord) : Except Err Board :=
  overlongGo c dirList b

def wingmanGo (c : Coord) : List Direction → Board → Except Err Board
  | [], b => .ok b
  | d :: ds, b =>
    let ahead := d.move c
    let lft := d.turn_left.move ahead
    let rgt := d.turn_right.move ahead
    if circlesGet b lft = some Circle.white ∧ circlesGet b rgt = some Circle.white then
      match set_black_leg b c.1 c.2 d.opposite with
      | .error e => .error e
      | .ok b2 => wingmanGo c ds b2
    else wingmanGo c ds b

/-- `_solve_wingman_black` from the source. -/
def solve_wingman_black (b : Board) (c : Coord) : Except Err Board :=
  wingmanGo c dirList b

def initPatternsGo : List (Coord × Circle) → Board → Except Err Board
  | [], b => .ok b
  | (c, col) :: rest, b =>
    match col with
    | .white =>
      (match solve_three_consecutive_whites b c with
       | .error e => .error e
       | .ok b2 => initPatternsGo rest b2)
    | .black =>
      (match solve_overlong_leg b c with
       | .error e => .error e
       | .ok b1 =>
         match solve_adjacent_blacks b1 c with
         | .error e => .error e
         | .ok b2 =>
           match solve_wingman_black b2 c with
           | .error e => .error e
           | .ok b3 => initPatternsGo rest b3)

/-- `solve_initial_patterns` from the source. -/
def solve_initial_patterns (b : Board) : Except Err Board :=
  initPatternsGo b.circles b


/-! ## Invariants and helper predicates -/

/-- Extract an `ok` board, with a fallback (used only to name concrete
boards in closed statements). -/
def okD (x : Except Err Board) (d : Board) : Board :=
  match x with
  | .ok v => v
  | .error _ => d

def cellEquiv : CellLine ≃ (Finset Direction × Finset Direction) where
  toFun c := (c.is_set, c.cannot_set)
  invFun p := ⟨p.1, p.2⟩
  left_inv := fun _ => rfl
  right_inv := fun _ => rfl

instance : Fintype CellLine := Fintype.ofEquiv _ cellEquiv.symm

def infoCard (c : CellLine) : Nat := c.is_set.card + c.cannot_set.card

/-- Pointwise information order on cells: both direction sets only grow. -/
def cellLe (c c' : CellLine) : Prop :=
  c.is_set ⊆ c'.is_set ∧ c.cannot_set ⊆ c'.cannot_set

instance (c c' : CellLine) : Decidable (cellLe c c') := by
  unfold cellLe; infer_instance

/-- The representation invariant of `CellLine` maintained by the code: a
cell starts with nothing confirmed, a cell with one confirmed direction has
at most one excluded direction unless fully decided, and a cell with two
confirmed directions has exactly the complementary pair excluded. -/
def Inv (c : CellLine) : Prop :=
  c.is_set.card = 0 ∨
  (c.is_set.card = 1 ∧ c.is_set ∩ c.cannot_set = ∅ ∧
    (c.cannot_set.card ≤ 1 ∨ c.cannot_set = dirUniv \ c.is_set)) ∨
  (c.is_set.card = 2 ∧ c.cannot_set = dirUniv \ c.is_set)

instance (c : CellLine) : Decidable (Inv c) := by
  unfold Inv; infer_instance

/-- Evaluate a predicate on the payload of an `ok` result (vacuously true on
errors); lets facts about all four cell operations be stated decidably. -/
def okImplies {e a : Type} (x : Except e a) (P : a → Prop) : Prop :=
  match x with
  | .ok v => P v
  | .error _ => True

instance {e a : Type} (x : Except e a) (P : a → Prop) [∀ v, Decidable (P v)] :
    Decidable (okImplies x P) := by
  unfold okImplies; cases x <;> infer_instance

/-- What one non-failing cell operation guarantees, starting from an
invariant-satisfying cell. -/
def cellStep (c c' : CellLine) : Prop :=
  Inv c' ∧ cellLe c c' ∧ (c' = c ∨ infoCard c < infoCard c')

instance (c c' : CellLine) : Decidable (cellStep c c') := by
  unfold cellStep; infer_instance

theorem set_direction_cellStep :
    ∀ c : CellLine, ∀ d : Direction, Inv c →
      okImplies (liftCell (c.set_direction d)) (cellStep c) := by decide

theorem disallow_direction_cellStep :
    ∀ c : CellLine, ∀ d : Direction, Inv c →
      okImplies (liftCell (c.disallow_direction d)) (cellStep c) := by decide

theorem get_through_cellStep :
    ∀ c : CellLine, Inv c → okImplies (liftCell c.get_through) (cellStep c) := by decide

theorem get_bent_cellStep :
    ∀ c : CellLine, Inv c → okImplies (liftCell c.get_bent) (cellStep c) := by decide

theorem Inv_disjoint : ∀ c : CellLine, Inv c → c.is_set ∩ c.cannot_set = ∅ := by decide


/-! ## Mutation attempts (for the atomicity claim) -/

/-- One of the four public Board mutators with its arguments. -/
inductive BoardMutator : Type
  | setDir (x y : Int) (d : Direction)
  | disallowDir (x y : Int) (d : Direction)
  | through (x y : Int)
  | bent (x y : Int)

def runMutator (m : BoardMutator) (b : Board) : Except Err Board :=
  match m with
  | .setDir x y d => b.set_direction x y d
  | .disallowDir x y d => b.disallow_direction x y d
  | .through x y => b.set_through x y
  | .bent x y => b.set_bent x y

/-- A caller attempting a mutation: on success it adopts the new board, on
any raised signal it keeps (and retries from) its own board. -/
def attemptMutation (m : BoardMutator) (b : Board) : Board :=
  match runMutator m b with
  | .ok b2 => b2
  | .error _ => b

/-! ## Cell operation sequences (for the CellLine invariant claim) -/

inductive CellOp : Type
  | set (d : Direction)
  | disallow (d : Direction)
  | through
  | bent

def applyCellOp (c : CellLine) : CellOp → Except CellErr CellLine
  | .set d => c.set_direction d
  | .disallow d => c.disallow_direction d
  | .through => c.get_through
  | .bent => c.get_bent

def applyCellOps : CellLine → List CellOp → Except CellErr CellLine
  | c, [] => .ok c
  | c, op :: ops =>
    match applyCellOp c op with
    | .error e => .error e
    | .ok c2 => applyCellOps c2 ops

/-! ## Concrete boards used by the witnesses -/

/-- The 1-row, 3-column board whose three cells are all white pearls. -/
def whites3Board : Board :=
  initBoard 3 1 [((0, 0), Circle.white), ((1, 0), Circle.white), ((2, 0), Circle.white)]

/-- The composition run by `main`: the one-shot shortcut pre-pass followed
by the solver. -/
def prePassSolve (fuel : Nat) (b : Board) : Except Err (Option Board) :=
  match solve_initial_patterns b with
  | .error e => .error e
  | .ok b2 => solve fuel b2

/-- A fully-closed 2x2 loop as a cell grid. -/
def clFull22 : List (List CellLine) :=
  [[⟨{Right, Down}, {Left, Up}⟩, ⟨{Left, Down}, {Up, Right}⟩],
   [⟨{Up, Right}, {Left, Down}⟩, ⟨{Up, Left}, {Right, Down}⟩]]

/-- The coordinate set of that loop. -/
def loop22 : Finset Coord := {(0, 0), (1, 0), (0, 1), (1, 1)}

/-- 2x2 board, one white pearl at (0,0) (inside the loop). -/
def bW22 : Board := initBoard 2 2 [((0, 0), Circle.white)]

/-- 2x2 board with no pearls at all. -/
def b22e : Board := initBoard 2 2 []

/-- A 3x2 board with a white pearl at (2,0), and a closed 2x2 loop on its
left half that misses that pearl. -/
def bW32 : Board := initBoard 3 2 [((2, 0), Circle.white)]

def clFull32 : List (List CellLine) :=
  [[⟨{Right, Down}, {Left, Up}⟩, ⟨{Left, Down}, {Up, Right}⟩, ⟨∅, {Up, Right}⟩],
   [⟨{Up, Right}, {Left, Down}⟩, ⟨{Up, Left}, {Right, Down}⟩, ⟨∅, {Right, Down}⟩]]

/-! ## Claim C1 -/

/-- C1: for every Board and every mutator call (`set_direction`,
`disallow_direction`, `set_through`, `set_bent`), if any step of the
triggered propagation raises, the caller's board is exactly what it was
before the call: no cell and no segment of the original board is altered,
and no partially-propagated board is observable.  (In the source this holds
because `Board` is frozen and propagation works on a `ChainMap` overlay
committed only by `evolve`; the embedding mirrors that: a mutator either
returns a whole new board or only an error.) -/
theorem mutators_atomic (b : Board) (m : BoardMutator) (e : Err)
    (h : runMutator m b = .error e) :
    attemptMutation m b = b ∧ (attemptMutation m b).cell_lines = b.cell_lines ∧
      (attemptMutation m b).line_segments = b.line_segments := by
  unfold attemptMutation
  rw [h]
  exact ⟨rfl, rfl, rfl⟩

theorem mutators_atomic_witness :
    runMutator (.setDir 0 0 Direction.Up) whites3Board = .error .contradiction ∧
      attemptMutation (.setDir 0 0 Direction.Up) whites3Board = whites3Board := by
  refine ⟨by decide, ?_⟩
  exact (mutators_atomic whites3Board (.setDir 0 0 Direction.Up) .contradiction (by decide)).1

/-! ## Claim C3 -/

theorem liftCell_ok {x : Except CellErr CellLine} {c : CellLine} :
    liftCell x = .ok c ↔ x = .ok c := by
  cases x with
  | ok v => simp [liftCell]
  | error e => cases e <;> simp [liftCell]

theorem applyCellOp_cellStep (c : CellLine) (op : CellOp) (c' : CellLine) (hInv : Inv c)
    (h : applyCellOp c op = .ok c') : cellStep c c' := by
  cases op with
  | set d =>
    have hs := set_direction_cellStep c d hInv
    rw [show liftCell (c.set_direction d) = .ok c' from liftCell_ok.mpr h] at hs
    exact hs
  | disallow d =>
    have hs := disallow_direction_cellStep c d hInv
    rw [show liftCell (c.disallow_direction d) = .ok c' from liftCell_ok.mpr h] at hs
    exact hs
  | through =>
    have hs := get_through_cellStep c hInv
    rw [show liftCell c.get_through = .ok c' from liftCell_ok.mpr h] at hs
    exact hs
  | bent =>
    have hs := get_bent_cellStep c hInv
    rw [show liftCell c.get_bent = .ok c' from liftCell_ok.mpr h] at hs
    exact hs

theorem applyCellOps_inv (ops : List CellOp) : ∀ c c' : CellLine, Inv c →
    applyCellOps c ops = .ok c' → Inv c' := by
  induction ops with
  | nil => intro c c' h hrun; cases hrun; exact h
  | cons op rest ih =>
    intro c c' h hrun
    unfold applyCellOps at hrun
    cases hop : applyCellOp c op with
    | error e => rw [hop] at hrun; cases hrun
    | ok c2 =>
      rw [hop] at hrun
      exact ih c2 c' (applyCellOp_cellStep c op c2 h hop).1 hrun

theorem Inv_conclusion : ∀ c : CellLine, Inv c →
    c.is_set ∩ c.cannot_set = ∅ ∧ c.is_set.card ≤ 2 := by decide

/-- C3 counterexample: a `CellLine` value with three confirmed directions
admits a non-failing operation sequence (a no-op `set_direction`) after
which `|is_set| = 3 ∉ {0,1,2}`; the claim as stated over every `CellLine`
value is therefore false.  (No such cell is ever constructed by the code.) -/
theorem cellline_invariant_counterexample :
    applyCellOps ⟨{Up, Right, Down}, ∅⟩ [CellOp.set Up] = .ok ⟨{Up, Right, Down}, ∅⟩ ∧
      (⟨{Up, Right, Down}, ∅⟩ : CellLine).is_set.card = 3 ∧
      ¬((⟨{Up, Right, Down}, ∅⟩ : CellLine).is_set.card = 0 ∨
        (⟨{Up, Right, Down}, ∅⟩ : CellLine).is_set.card = 1 ∨
        (⟨{Up, Right, Down}, ∅⟩ : CellLine).is_set.card = 2) := by decide

/-- C3 (amended): for every `CellLine` that starts with no confirmed
direction - as every cell constructed by the program does - and every finite
sequence of `set_direction` / `disallow_direction` / `get_through` /
`get_bent` operations none of which raises, the resulting cell satisfies
`is_set ∩ cannot_set = ∅` and `|is_set| ∈ {0,1,2}`. -/
theorem cellline_invariant (c0 : CellLine) (h0 : c0.is_set = ∅) (ops : List CellOp)
    (c' : CellLine) (h : applyCellOps c0 ops = .ok c') :
    c'.is_set ∩ c'.cannot_set = ∅ ∧ c'.is_set.card ≤ 2 := by
  have hInv0 : Inv c0 := Or.inl (by rw [h0]; rfl)
  exact Inv_conclusion c' (applyCellOps_inv ops c0 c' hInv0 h)

theorem cellline_invariant_witness :
    (⟨{Up, Right}, {Down, Left}⟩ : CellLine).is_set ∩
        (⟨{Up, Right}, {Down, Left}⟩ : CellLine).cannot_set = ∅ ∧
      (⟨{Up, Right}, {Down, Left}⟩ : CellLine).is_set.card ≤ 2 :=
  cellline_invariant ⟨∅, ∅⟩ rfl [CellOp.set Up, CellOp.set Right]
    ⟨{Up, Right}, {Down, Left}⟩ (by decide)

/-! ## Claim C2 -/

/-- C2: whenever the segment tracker detects a closed loop during a board
update, `evolve`'s outcome is Solved (carrying the terminal board) if and
only if every pearl coordinate lies in the closed loop's coordinate set;
if some pearl coordinate is missing, the outcome is a plain
contradiction. -/
theorem loop_closed_solved_iff (b : Board) (cl : List (List CellLine)) (L : Finset Coord)
    (h : trackSegments b cl = .error (.loopE L)) :
    (b.evolve cl = .error (.solved ⟨b.width, b.height, b.circles, cl, []⟩) ↔
      ∀ p ∈ b.circles, p.1 ∈ L) ∧
    ((∃ p ∈ b.circles, p.1 ∉ L) → b.evolve cl = .error .contradiction) := by
  have hev : b.evolve cl =
      (match validate_solved L b.circles with
       | .error e => .error e
       | .ok _ => .error (.solved ⟨b.width, b.height, b.circles, cl, []⟩)) := by
    unfold Board.evolve
    rw [h]
  unfold validate_solved at hev
  by_cases hall : (b.circles.all fun p => decide (p.1 ∈ L)) = true
  · rw [if_pos hall] at hev
    have hforall : ∀ p ∈ b.circles, p.1 ∈ L := by
      intro p hp
      exact of_decide_eq_true (List.all_eq_true.mp hall p hp)
    refine ⟨⟨fun _ => hforall, fun _ => hev⟩, ?_⟩
    rintro ⟨p, hp, hnot⟩
    exact absurd (hforall p hp) hnot
  · rw [if_neg hall] at hev
    have hex : ∃ p ∈ b.circles, p.1 ∉ L := by
      by_contra hc
      push_neg at hc
      exact hall (List.all_eq_true.mpr fun p hp => decide_eq_true (hc p hp))
    refine ⟨⟨?_, ?_⟩, fun _ => hev⟩
    · intro hsol
      rw [hev] at hsol
      injection hsol with h2
      exact Err.noConfusion h2
    · intro hf
      obtain ⟨p, hp, hnot⟩ := hex
      exact absurd (hf p hp) hnot

theorem loop_closed_solved_iff_witness :
    Board.evolve bW22 clFull22 =
        .error (.solved ⟨bW22.width, bW22.height, bW22.circles, clFull22, []⟩) ∧
      Board.evolve bW32 clFull32 = .error .contradiction := by
  constructor
  · exact (loop_closed_solved_iff bW22 clFull22 loop22 (by decide)).1.mpr (by decide)
  · exact (loop_closed_solved_iff bW32 clFull32 loop22 (by decide)).2
      ⟨(((2 : Int), (0 : Int)), Circle.white), by decide, by decide⟩

/-! ## Claim C10 -/

/-- C10: on a board whose pearl map is empty, any update whose segment
tracking detects a closed loop is reported as Solved, never as a
contradiction: the pearl-coverage check is vacuous, so the solved signal
carrying the looped board is raised. -/
theorem empty_circles_loop_solved (b : Board) (cl : List (List CellLine)) (L : Finset Coord)
    (hc : b.circles = []) (h : trackSegments b cl = .error (.loopE L)) :
    b.evolve cl = .error (.solved ⟨b.width, b.height, b.circles, cl, []⟩) := by
  have hev : b.evolve cl =
      (match validate_solved L b.circles with
       | .error e => .error e
       | .ok _ => .error (.solved ⟨b.width, b.height, b.circles, cl, []⟩)) := by
    unfold Board.evolve
    rw [h]
  unfold validate_solved at hev
  rw [hc] at hev ⊢
  exact hev

theorem empty_circles_loop_solved_witness :
    Board.evolve b22e clFull22 =
      .error (.solved ⟨b22e.width, b22e.height, b22e.circles, clFull22, []⟩) :=
  empty_circles_loop_solved b22e clFull22 loop22 rfl (by decide)

/-! ## Claim C8 -/

/-- C8 counterexample: the one-shot shortcut pre-pass followed by solving
does NOT resolve the 1-row 3-column all-white board without failure - no
board is produced at all. -/
theorem three_whites_row_counterexample :
    (prePassSolve 10 whites3Board).isOk = false := by decide

/-- C8 (amended): on a 1-row, 3-column board whose three cells are all white
pearls, the one-shot shortcut raises a contradiction: the perpendicular stub
it forces at the first pearl (`Up`) is off the board (it is among the
pre-excluded edge directions of a 1-row board), so the pre-pass - and hence
the pre-pass-then-solve composition - fails with a contradiction and no
solved board. -/
theorem three_whites_row_amended :
    Board.set_direction whites3Board 0 0 Direction.Up = .error .contradiction ∧
      solve_three_consecutive_whites whites3Board ((0 : Int), (0 : Int)) =
        .error .contradiction ∧
      solve_initial_patterns whites3Board = .error .contradiction ∧
      prePassSolve 10 whites3Board = .error .contradiction := by decide


/-! ## Claim C5 -/

/-- C5: `apply_white` first forces straight-through at the pearl; when both
legs are confirmed it hypothetically bends each leg neighbor without
committing: it raises a contradiction exactly when both hypothetical bends
fail; when exactly one fails it returns the board in which the other
neighbor is actually bent; when neither fails it returns the
straight-through board unchanged (and when fewer than two legs are
confirmed it returns the straight-through board immediately). -/
theorem apply_white_cases (b b1 : Board) (x y : Int) (cell : CellLine)
    (h1 : b.set_through x y = .ok b1)
    (h2 : b1.cellAt (x, y) = some cell) :
    (cell.is_set.card ≠ 2 → apply_white b x y = .ok b1) ∧
    (cell.is_set.card = 2 →
      (b1.set_bent ((twoDirs cell.is_set).1.move (x, y)).1
            ((twoDirs cell.is_set).1.move (x, y)).2 = .error .contradiction →
        b1.set_bent ((twoDirs cell.is_set).2.move (x, y)).1
            ((twoDirs cell.is_set).2.move (x, y)).2 = .error .contradiction →
        apply_white b x y = .error .contradiction) ∧
      (∀ bl, b1.set_bent ((twoDirs cell.is_set).1.move (x, y)).1
            ((twoDirs cell.is_set).1.move (x, y)).2 = .ok bl →
        b1.set_bent ((twoDirs cell.is_set).2.move (x, y)).1
            ((twoDirs cell.is_set).2.move (x, y)).2 = .error .contradiction →
        apply_white b x y = .ok bl) ∧
      (∀ br, b1.set_bent ((twoDirs cell.is_set).1.move (x, y)).1
            ((twoDirs cell.is_set).1.move (x, y)).2 = .error .contradiction →
        b1.set_bent ((twoDirs cell.is_set).2.move (x, y)).1
            ((twoDirs cell.is_set).2.move (x, y)).2 = .ok br →
        apply_white b x y = .ok br) ∧
      (∀ bl br, b1.set_bent ((twoDirs cell.is_set).1.move (x, y)).1
            ((twoDirs cell.is_set).1.move (x, y)).2 = .ok bl →
        b1.set_bent ((twoDirs cell.is_set).2.move (x, y)).1
            ((twoDirs cell.is_set).2.move (x, y)).2 = .ok br →
        apply_white b x y = .ok b1)) := by
  have hbase : apply_white b x y =
      (if cell.is_set.card ≠ 2 then .ok b1
       else
         match catchContra (b1.set_bent ((twoDirs cell.is_set).1.move (x, y)).1
             ((twoDirs cell.is_set).1.move (x, y)).2) with
         | .error e => .error e
         | .ok oleft =>
           match catchContra (b1.set_bent ((twoDirs cell.is_set).2.move (x, y)).1
               ((twoDirs cell.is_set).2.move (x, y)).2) with
           | .error e => .error e
           | .ok oright =>
             match oleft, oright with
             | none, none => .error .contradiction
             | none, some bend_right => .ok bend_right
             | some bend_left, none => .ok bend_left
             | some _, some _ => .ok b1) := by
    unfold apply_white
    rw [h1]
    dsimp only
    rw [h2]
  constructor
  · intro hcard
    rw [hbase, if_pos hcard]
  · intro hcard
    have hcard2 : ¬cell.is_set.card ≠ 2 := by simp [hcard]
    rw [hbase, if_neg hcard2]
    refine ⟨?_, ?_, ?_, ?_⟩
    · intro hL hR
      rw [hL, hR]
      rfl
    · intro bl hL hR
      rw [hL, hR]
      rfl
    · intro br hL hR
      rw [hL, hR]
      rfl
    · intro bl br hL hR
      rw [hL, hR]
      rfl


/-- A 3x3 board whose center cell has both horizontal legs confirmed
(built by two non-failing `set_direction` calls). -/
def bC5a : Board := okD ((initBoard 3 3 []).set_direction 1 1 Direction.Right) (initBoard 3 3 [])

def bC5 : Board := okD (bC5a.set_direction 1 1 Direction.Left) bC5a

theorem apply_white_cases_witness : apply_white bC5 1 1 = .ok bC5 := by
  have h := apply_white_cases bC5 bC5 1 1 ⟨{Right, Left}, {Up, Down}⟩ (by decide) (by decide)
  exact (h.2 (by decide)).2.2.2 bC5 bC5 (by decide) (by decide)

/-! ## Claim C6 -/

/-- Number of possibility pairs in an expansion outcome. -/
def possCount : Except Err PossResult → Nat
  | .ok (.pairs l) => l.length
  | _ => 0

/-- Number of surviving hypothetical fixpoints at one cell-direction pair. -/
def spotLen (b : Board) (x y : Int) (d : Direction) : Nat :=
  match spot_direction_options b x y d with
  | .ok l => l.length
  | .error _ => 0

/-- Do the two surviving hypothetical fixpoints differ? -/
def spotDistinct (b : Board) (x y : Int) (d : Direction) : Bool :=
  match spot_direction_options b x y d with
  | .ok [b1, b2] => decide (b1 ≠ b2)
  | _ => false

theorem spotLen_two (b : Board) (x y : Int) (d : Direction)
    (h : spotLen b x y d = 2) :
    ∃ b1 b2, spot_direction_options b x y d = .ok [b1, b2] := by
  unfold spotLen at h
  cases hs : spot_direction_options b x y d with
  | error e => rw [hs] at h; cases h
  | ok l =>
    rw [hs] at h
    match l, h with
    | [b1, b2], _ => exact ⟨b1, b2, rfl⟩

theorem possGo_all_two (b : Board) :
    ∀ l acc, (∀ p ∈ l, ∃ b1 b2, spot_direction_options b p.1.1 p.1.2 p.2 = .ok [b1, b2]) →
      ∃ res, possGo b l acc = .ok (.pairs res) ∧ res.length = acc.length + l.length := by
  intro l
  induction l with
  | nil =>
    intro acc _
    exact ⟨acc.reverse, rfl, by simp⟩
  | cons p rest ih =>
    intro acc hall
    obtain ⟨b1, b2, hs⟩ := hall p (List.mem_cons_self p rest)
    have hrest : ∀ q ∈ rest, ∃ b1 b2, spot_direction_options b q.1.1 q.1.2 q.2 = .ok [b1, b2] :=
      fun q hq => hall q (List.mem_cons_of_mem p hq)
    obtain ⟨res, hres, hlen⟩ := ih ((b1, b2) :: acc) hrest
    refine ⟨res, ?_, ?_⟩
    · show possGo b (p :: rest) acc = .ok (.pairs res)
      unfold possGo
      rw [hs]
      exact hres
    · rw [hlen]
      simp only [List.length_cons]
      omega

theorem possGo_skip_two (b : Board) :
    ∀ pre rest acc,
      (∀ q ∈ pre, ∃ b1 b2, spot_direction_options b q.1.1 q.1.2 q.2 = .ok [b1, b2]) →
      ∃ acc2, possGo b (pre ++ rest) acc = possGo b rest acc2 := by
  intro pre
  induction pre with
  | nil => intro rest acc _; exact ⟨acc, rfl⟩
  | cons p pre2 ih =>
    intro rest acc hall
    obtain ⟨c, d⟩ := p
    obtain ⟨b1, b2, hs⟩ := hall (c, d) (List.mem_cons_self _ pre2)
    dsimp only at hs
    obtain ⟨acc2, hacc⟩ := ih rest ((b1, b2) :: acc)
      (fun q hq => hall q (List.mem_cons_of_mem _ hq))
    refine ⟨acc2, ?_⟩
    rw [List.cons_append]
    have step : possGo b ((c, d) :: (pre2 ++ rest)) acc =
        possGo b (pre2 ++ rest) ((b1, b2) :: acc) := by
      conv_lhs => rw [possGo.eq_def]
      dsimp only
      rw [hs]
    rw [step]
    exact hacc

/-- C6 counterexample: on the empty 3x3 board the very first eligible
cell-direction pair has both hypothetical fixpoints succeeding, and the two
boards differ - yet expansion materializes twelve PossibilityPairs (one per
eligible pair), not exactly one. -/
theorem expand_counterexample :
    spotLen (initBoard 3 3 []) 0 0 Direction.Right = 2 ∧
      spotDistinct (initBoard 3 3 []) 0 0 Direction.Right = true ∧
      (eligiblePairs (initBoard 3 3 [])).head? = some (((0 : Int), (0 : Int)), Direction.Right) ∧
      possCount (get_possibility_list (initBoard 3 3 [])) = 12 := by decide

/-- C6 (amended): expanding an Unexplored node scans ALL eligible
cell-direction pairs of its board in row-major order restricted to the
masked direction pair {Right, Down}, building the two hypothetical
fixpoints for each: at the first pair where both hypotheses fail the node
is a dead end to be pruned upward; at the first pair where exactly one
succeeds the node collapses to that resulting board with no branch; and
when every eligible pair has both hypotheses succeeding, one
PossibilityPair with two unexplored children is materialized per eligible
pair (whether or not the two boards differ). -/
theorem expand_characterization (b : Board) :
    ((∀ p ∈ eligiblePairs b,
        ∃ b1 b2, spot_direction_options b p.1.1 p.1.2 p.2 = .ok [b1, b2]) →
      ∃ res, get_possibility_list b = .ok (.pairs res) ∧
        res.length = (eligiblePairs b).length ∧
        (res ≠ [] →
          expandAt (.node b none) [] = .ok (some (.node b (some (res.map mkPair)))))) ∧
    (∀ pre p post, eligiblePairs b = pre ++ p :: post →
      (∀ q ∈ pre, ∃ b1 b2, spot_direction_options b q.1.1 q.1.2 q.2 = .ok [b1, b2]) →
      (∀ b1, spot_direction_options b p.1.1 p.1.2 p.2 = .ok [b1] →
        get_possibility_list b = .ok (.certain b1) ∧
          expandAt (.node b none) [] = .ok (some (.node b1 none))) ∧
      (spot_direction_options b p.1.1 p.1.2 p.2 = .ok [] →
        get_possibility_list b = .ok (.pairs []) ∧
          expandAt (.node b none) [] = .ok none)) := by
  constructor
  · intro hall
    obtain ⟨res, hres, hlen⟩ := possGo_all_two b (eligiblePairs b) [] hall
    have hg : get_possibility_list b = .ok (.pairs res) := hres
    refine ⟨res, hg, by simpa using hlen, ?_⟩
    intro hres_ne
    have hne : expandAt (.node b none) [] =
        (match get_possibility_list b with
         | .error e => .error e
         | .ok (.certain b2) => .ok (some (.node b2 none))
         | .ok (.pairs []) => .ok none
         | .ok (.pairs ps) => .ok (some (.node b (some (ps.map mkPair))))) := rfl
    rw [hne, hg]
    cases res with
    | nil => exact absurd rfl hres_ne
    | cons r rs => rfl
  · intro pre p post helig hpre
    obtain ⟨acc2, hskip⟩ := possGo_skip_two b pre (p :: post) [] hpre
    have hexp : expandAt (.node b none) [] =
        (match get_possibility_list b with
         | .error e => .error e
         | .ok (.certain b2) => .ok (some (.node b2 none))
         | .ok (.pairs []) => .ok none
         | .ok (.pairs ps) => .ok (some (.node b (some (ps.map mkPair))))) := rfl
    constructor
    · intro b1 hs
      have hg : get_possibility_list b = .ok (.certain b1) := by
        unfold get_possibility_list
        rw [helig, hskip]
        unfold possGo
        rw [hs]
      refine ⟨hg, ?_⟩
      rw [hexp, hg]
    · intro hs
      have hg : get_possibility_list b = .ok (.pairs []) := by
        unfold get_possibility_list
        rw [helig, hskip]
        unfold possGo
        rw [hs]
      refine ⟨hg, ?_⟩
      rw [hexp, hg]


/-- 3x3 board with a black pearl at the corner (0,0): confirming Right at
(0,0) survives, excluding it contradicts - the first eligible pair is
decisive with exactly one survivor. -/
def black33 : Board := initBoard 3 3 [((0, 0), Circle.black)]

def certainB33 : Board :=
  okD ((black33.set_direction 0 0 Direction.Right).bind solve_known_constraints) black33

/-- 3x1 board with a white pearl at (0,0): both hypothetical fixpoints of
the first eligible pair contradict - a dead end. -/
def white1 : Board := initBoard 3 1 [((0, 0), Circle.white)]

theorem expand_characterization_witness :
    possCount (get_possibility_list (initBoard 3 3 [])) =
        (eligiblePairs (initBoard 3 3 [])).length ∧
      get_possibility_list black33 = .ok (.certain certainB33) ∧
      expandAt (.node black33 none) [] = .ok (some (.node certainB33 none)) ∧
      get_possibility_list white1 = .ok (.pairs []) ∧
      expandAt (.node white1 none) [] = .ok none := by
  have h2 := ((expand_characterization black33).2 []
    (((0 : Int), (0 : Int)), Direction.Right) ((eligiblePairs black33).drop 1)
    (by decide) (fun q hq => absurd hq (List.not_mem_nil q))).1 certainB33 (by decide)
  have h3 := ((expand_characterization white1).2 []
    (((0 : Int), (0 : Int)), Direction.Right) ((eligiblePairs white1).drop 1)
    (by decide) (fun q hq => absurd hq (List.not_mem_nil q))).2 (by decide)
  refine ⟨?_, h2.1, h2.2, h3.1, h3.2⟩
  have hb : (eligiblePairs (initBoard 3 3 [])).all
      (fun p => decide (spotLen (initBoard 3 3 []) p.1.1 p.1.2 p.2 = 2)) = true := by decide
  have hall : ∀ p ∈ eligiblePairs (initBoard 3 3 []),
      ∃ b1 b2, spot_direction_options (initBoard 3 3 []) p.1.1 p.1.2 p.2 = .ok [b1, b2] :=
    fun p hp => spotLen_two _ _ _ _ (of_decide_eq_true (List.all_eq_true.mp hb p hp))
  obtain ⟨res, hres, hlen, _⟩ := (expand_characterization (initBoard 3 3 [])).1 hall
  rw [hres, ← hlen]
  rfl

/-! ## Claim C7 -/

/-- 2x2 board with a black pearl at (0,0); the very first deduction closes
the loop, so the fixpoint driver itself raises the solved signal. -/
def black22 : Board := initBoard 2 2 [((0, 0), Circle.black)]

/-- The solved board carried by the signal on `b22e` (no pearls). -/
def s22 : Board := ⟨2, 2, [], clFull22, []⟩

/-- The solved board carried by the signal on `black22`. -/
def sB22 : Board := ⟨2, 2, [((0, 0), Circle.black)], clFull22, []⟩

/-- C7: the Solved signal is never caught before the top level.  The
hypothesis-suppressing contexts (`does_raise` / `suppress`, embedded as
`catchContra`) pass it through untouched; each layer of the hypothetical
machinery (`_spot_direction_options`, `get_possibility_list`'s scan, the
fixpoint driver's pass loop and `solve_known_constraints` itself, and the
search loop) re-raises it unchanged; and the top-level `solve` is the first
handler, returning the carried solved board. -/
theorem solved_never_caught_early :
    (∀ s : Board, catchContra (Except.error (.solved s) : Except Err Board) =
        .error (.solved s)) ∧
    (∀ (b : Board) (x y : Int) (d : Direction) (s : Board),
      (b.set_direction x y d).bind solve_known_constraints = .error (.solved s) →
      spot_direction_options b x y d = .error (.solved s)) ∧
    (∀ (b : Board) (x y : Int) (d : Direction) (s : Board) (o1 : Option Board),
      catchContra ((b.set_direction x y d).bind solve_known_constraints) = .ok o1 →
      (b.disallow_direction x y d).bind solve_known_constraints = .error (.solved s) →
      spot_direction_options b x y d = .error (.solved s)) ∧
    (∀ (b : Board) (c : Coord) (d : Direction) (rest : List (Coord × Direction))
        (acc : List (Board × Board)) (s : Board),
      spot_direction_options b c.1 c.2 d = .error (.solved s) →
      possGo b ((c, d) :: rest) acc = .error (.solved s)) ∧
    (∀ (rest : List (Coord × Circle)) (b : Board) (c : Coord) (col : Circle) (s : Board),
      (match col with
       | .white => apply_white b c.1 c.2
       | .black => apply_black b c.1 c.2) = .error (.solved s) →
      passGo ((c, col) :: rest) b = .error (.solved s)) ∧
    (∀ (fuel : Nat) (b : Board) (s : Board),
      solvePass b = .error (.solved s) →
      solveKCGo (fuel + 1) b = .error (.solved s)) ∧
    (∀ (b : Board) (s : Board),
      solvePass b = .error (.solved s) →
      solve_known_constraints b = .error (.solved s)) ∧
    (∀ (fuel : Nat) (t : Tree) (path : List (Nat × Bool)) (s : Board),
      findUnexplored (fuel + 1) t = some path →
      expandAt t path = .error (.solved s) →
      solveLoop (fuel + 1) t = .ok (some s)) ∧
    (∀ (fuel : Nat) (b : Board) (s : Board),
      solve_known_constraints b = .error (.solved s) →
      solve fuel b = .ok (some s)) ∧
    (∀ (fuel : Nat) (b r : Board) (s : Board),
      solve_known_constraints b = .ok r →
      solveLoop fuel (.node r none) = .ok (some s) →
      solve fuel b = .ok (some s)) := by
  refine ⟨?_, ?_, ?_, ?_, ?_, ?_, ?_, ?_, ?_, ?_⟩
  · intro s
    rfl
  · intro b x y d s h
    unfold spot_direction_options
    rw [h]
    rfl
  · intro b x y d s o1 h1 h2
    unfold spot_direction_options
    rw [h1]
    dsimp only
    rw [h2]
    rfl
  · intro b c d rest acc s h
    conv_lhs => rw [possGo.eq_def]
    dsimp only
    rw [h]
  · intro rest b c col s h
    have step : passGo ((c, col) :: rest) b =
        (match (match col with
                | Circle.white => apply_white b c.1 c.2
                | Circle.black => apply_black b c.1 c.2) with
         | .error e => Except.error e
         | .ok b2 => passGo rest b2) := by
      cases col <;> rfl
    rw [step, h]
  · intro fuel b s h
    unfold solveKCGo
    rw [h]
  · intro b s h
    unfold solve_known_constraints
    unfold solveKCGo
    rw [h]
  · intro fuel t path s hf he
    unfold solveLoop
    rw [hf]
    dsimp only
    rw [he]
  · intro fuel b s h
    unfold solve
    rw [h]
  · intro fuel b r s h1 h2
    unfold solve
    rw [h1]
    exact h2

theorem solved_never_caught_early_witness :
    catchContra (Except.error (.solved s22) : Except Err Board) = .error (.solved s22) ∧
      spot_direction_options b22e 0 0 Direction.Right = .error (.solved s22) ∧
      spot_direction_options black22 1 1 Direction.Right = .error (.solved sB22) ∧
      possGo black22 ((((0 : Int), (0 : Int)), Direction.Right) ::
        (eligiblePairs black22).drop 1) [] = .error (.solved sB22) ∧
      passGo [(((0 : Int), (0 : Int)), Circle.black)] black22 = .error (.solved sB22) ∧
      solveKCGo 1 black22 = .error (.solved sB22) ∧
      solve_known_constraints black22 = .error (.solved sB22) ∧
      solveLoop 1 (.node b22e none) = .ok (some s22) ∧
      solve 5 black22 = .ok (some sB22) ∧
      solve 1 b22e = .ok (some s22) := by
  obtain ⟨h1, h2, h3, h4, h5, h6, h7, h8, h9, h10⟩ := solved_never_caught_early
  refine ⟨h1 s22, ?_, ?_, ?_, ?_, ?_, ?_, ?_, ?_, ?_⟩
  · exact h2 b22e 0 0 Direction.Right s22 (by decide)
  · exact h3 black22 1 1 Direction.Right sB22 none (by decide) (by decide)
  · exact h4 black22 ((0 : Int), (0 : Int)) Direction.Right
      ((eligiblePairs black22).drop 1) [] sB22 (by decide)
  · exact h5 [] black22 ((0 : Int), (0 : Int)) Circle.black sB22 (by decide)
  · exact h6 0 black22 sB22 (by decide)
  · exact h7 black22 sB22 (by decide)
  · have hexp : expandAt (Tree.node b22e none) [] = .error (.solved s22) := by
      have h0 : get_possibility_list b22e = .error (.solved s22) := by decide
      show (match get_possibility_list b22e with
            | Except.error e => (Except.error e : Except Err (Option Tree))
            | Except.ok (PossResult.certain b2) => Except.ok (some (Tree.node b2 none))
            | Except.ok (PossResult.pairs []) => Except.ok none
            | Except.ok (PossResult.pairs ps) =>
              Except.ok (some (Tree.node b22e (some (ps.map mkPair))))) =
          Except.error (Err.solved s22)
      rw [h0]
    exact h8 0 (.node b22e none) [] s22 (by decide) hexp
  · exact h9 5 black22 sB22 (by decide)
  · exact h10 1 b22e b22e s22 (by decide) (by decide)


/-! ## Board validity and geometry lemmas -/

def inGrid (b : Board) (c : Coord) : Prop :=
  0 ≤ c.1 ∧ c.1 < b.width ∧ 0 ≤ c.2 ∧ c.2 < b.height

instance (b : Board) (c : Coord) : Decidable (inGrid b c) := by
  unfold inGrid; infer_instance

def optImplies {a : Type} (o : Option a) (P : a → Prop) : Prop :=
  match o with
  | some v => P v
  | none => True

instance {a : Type} (o : Option a) (P : a → Prop) [∀ v, Decidable (P v)] :
    Decidable (optImplies o P) := by
  unfold optImplies; cases o <;> infer_instance

/-- The representation invariant of boards as the program constructs them:
a rectangular grid whose cells all satisfy the cell invariant and keep
their off-grid directions excluded. -/
def ValidBoard (b : Board) : Prop :=
  b.cell_lines.length = b.height.toNat ∧
  (∀ row ∈ b.cell_lines, row.length = b.width.toNat) ∧
  (∀ c ∈ gridCoords b.width b.height, optImplies (b.cellAt c) (fun cell =>
    Inv cell ∧ edges_at b.width b.height c.1 c.2 ⊆ cell.cannot_set))

instance (b : Board) : Decidable (ValidBoard b) := by
  unfold ValidBoard; infer_instance

theorem move_ne (d : Direction) (c : Coord) : d.move c ≠ c := by
  obtain ⟨x, y⟩ := c
  cases d <;> simp [Direction.move] <;> omega

theorem cellAt_some_inGrid {b : Board} {c : Coord} {cell : CellLine}
    (h : b.cellAt c = some cell) : inGrid b c := by
  unfold Board.cellAt clAt at h
  by_cases hg : 0 ≤ c.1 ∧ c.1 < b.width ∧ 0 ≤ c.2 ∧ c.2 < b.height
  · exact hg
  · rw [if_neg hg] at h
    cases h

theorem mem_gridCoords {w hh : Int} {c : Coord} :
    c ∈ gridCoords w hh ↔ 0 ≤ c.1 ∧ c.1 < w ∧ 0 ≤ c.2 ∧ c.2 < hh := by
  obtain ⟨x, y⟩ := c
  unfold gridCoords
  constructor
  · intro hmem
    obtain ⟨ny, hny, hx⟩ := List.mem_flatMap.mp hmem
    obtain ⟨nx, hnx, heq⟩ := List.mem_map.mp hx
    rw [List.mem_range] at hny hnx
    rw [Prod.mk.injEq] at heq
    obtain ⟨h1, h2⟩ := heq
    subst h1
    subst h2
    simp only [Int.ofNat_eq_natCast]
    exact ⟨by omega, by omega, by omega, by omega⟩
  · rintro ⟨hx0, hxw, hy0, hyh⟩
    refine List.mem_flatMap.mpr ⟨y.toNat, List.mem_range.mpr (by omega), ?_⟩
    refine List.mem_map.mpr ⟨x.toNat, List.mem_range.mpr (by omega), ?_⟩
    rw [Prod.mk.injEq]
    simp only [Int.ofNat_eq_natCast]
    constructor <;> omega

theorem inGrid_mem_gridCoords {b : Board} {c : Coord} (h : inGrid b c) :
    c ∈ gridCoords b.width b.height :=
  mem_gridCoords.mpr h

theorem valid_cellAt {b : Board} (hv : ValidBoard b) {c : Coord} {cell : CellLine}
    (h : b.cellAt c = some cell) :
    Inv cell ∧ edges_at b.width b.height c.1 c.2 ⊆ cell.cannot_set := by
  have hg := cellAt_some_inGrid h
  have := hv.2.2 c (inGrid_mem_gridCoords hg)
  rw [h] at this
  exact this

theorem inGrid_cellAt_isSome {b : Board} (hv : ValidBoard b) {c : Coord} (h : inGrid b c) :
    ∃ cell, b.cellAt c = some cell := by
  obtain ⟨hx0, hxw, hy0, hyh⟩ := h
  unfold Board.cellAt clAt
  rw [if_pos ⟨hx0, hxw, hy0, hyh⟩]
  have hylen : c.2.toNat < b.cell_lines.length := by
    rw [hv.1]
    omega
  cases hrow : b.cell_lines.get? c.2.toNat with
  | none =>
    have := List.get?_eq_none.mp hrow
    omega
  | some row =>
    have hrmem : row ∈ b.cell_lines := List.get?_mem hrow
    have hxlen : c.1.toNat < row.length := by
      rw [hv.2.1 row hrmem]
      omega
    cases hcell : row.get? c.1.toNat with
    | none =>
      have := List.get?_eq_none.mp hcell
      omega
    | some cell =>
      refine ⟨cell, ?_⟩
      exact hcell

theorem mem_edges_at {w h : Int} {x y : Int} {d : Direction} :
    d ∈ edges_at w h x y ↔
      (d = Left ∧ x = 0) ∨ (d = Up ∧ y = 0) ∨ (d = Down ∧ y = h - 1) ∨
        (d = Right ∧ x = w - 1) := by
  unfold edges_at
  simp only [Finset.mem_union]
  constructor
  · intro hmem
    rcases hmem with ((h1 | h2) | h3) | h4
    · left
      by_cases hx : x = 0
      · rw [if_pos hx] at h1
        exact ⟨Finset.mem_singleton.mp h1, hx⟩
      · rw [if_neg hx] at h1
        cases Finset.not_mem_empty d h1
    · right; left
      by_cases hy : y = 0
      · rw [if_pos hy] at h2
        exact ⟨Finset.mem_singleton.mp h2, hy⟩
      · rw [if_neg hy] at h2
        cases Finset.not_mem_empty d h2
    · right; right; left
      by_cases hy : y = h - 1
      · rw [if_pos hy] at h3
        exact ⟨Finset.mem_singleton.mp h3, hy⟩
      · rw [if_neg hy] at h3
        cases Finset.not_mem_empty d h3
    · right; right; right
      by_cases hx : x = w - 1
      · rw [if_pos hx] at h4
        exact ⟨Finset.mem_singleton.mp h4, hx⟩
      · rw [if_neg hx] at h4
        cases Finset.not_mem_empty d h4
  · intro hcase
    rcases hcase with ⟨hd, hx⟩ | ⟨hd, hy⟩ | ⟨hd, hy⟩ | ⟨hd, hx⟩
    · left; left; left
      rw [if_pos hx, hd]
      exact Finset.mem_singleton_self _
    · left; left; right
      rw [if_pos hy, hd]
      exact Finset.mem_singleton_self _
    · left; right
      rw [if_pos hy, hd]
      exact Finset.mem_singleton_self _
    · right
      rw [if_pos hx, hd]
      exact Finset.mem_singleton_self _

theorem move_inGrid {b : Board} {c : Coord} {d : Direction} (hg : inGrid b c)
    (hd : d ∉ edges_at b.width b.height c.1 c.2) : inGrid b (d.move c) := by
  obtain ⟨x, y⟩ := c
  obtain ⟨hx0, hxw, hy0, hyh⟩ := hg
  cases d with
  | Up =>
    have hy : ¬(y = 0) := fun hy => hd (mem_edges_at.mpr (Or.inr (Or.inl ⟨rfl, hy⟩)))
    show inGrid b (x, y - 1)
    exact ⟨hx0, hxw, by omega, by omega⟩
  | Down =>
    have hy : ¬(y = b.height - 1) := fun hy =>
      hd (mem_edges_at.mpr (Or.inr (Or.inr (Or.inl ⟨rfl, hy⟩))))
    show inGrid b (x, y + 1)
    exact ⟨hx0, hxw, by omega, by omega⟩
  | Left =>
    have hx : ¬(x = 0) := fun hx => hd (mem_edges_at.mpr (Or.inl ⟨rfl, hx⟩))
    show inGrid b (x - 1, y)
    exact ⟨by omega, by omega, hy0, hyh⟩
  | Right =>
    have hx : ¬(x = b.width - 1) := fun hx =>
      hd (mem_edges_at.mpr (Or.inr (Or.inr (Or.inr ⟨rfl, hx⟩))))
    show inGrid b (x + 1, y)
    exact ⟨by omega, by omega, hy0, hyh⟩

/-! ## Cell order and change-map lemmas -/

theorem cellLe_refl (c : CellLine) : cellLe c c :=
  ⟨Finset.Subset.refl _, Finset.Subset.refl _⟩

theorem cellLe_trans {a b c : CellLine} (h1 : cellLe a b) (h2 : cellLe b c) : cellLe a c :=
  ⟨h1.1.trans h2.1, h1.2.trans h2.2⟩

theorem cellLe_antisymm {a b : CellLine} (h1 : cellLe a b) (h2 : cellLe b a) : a = b := by
  cases a
  cases b
  simp only [CellLine.mk.injEq]
  exact ⟨Finset.Subset.antisymm h1.1 h2.1, Finset.Subset.antisymm h1.2 h2.2⟩

theorem infoCard_mono {a b : CellLine} (h : cellLe a b) : infoCard a ≤ infoCard b :=
  Nat.add_le_add (Finset.card_le_card h.1) (Finset.card_le_card h.2)

theorem infoCard_strict {a b : CellLine} (h : cellLe a b) (hne : a ≠ b) :
    infoCard a < infoCard b := by
  have c1 := Finset.card_le_card h.1
  have c2 := Finset.card_le_card h.2
  by_cases hs : a.is_set = b.is_set
  · have hn : a.cannot_set ≠ b.cannot_set := by
      intro hn
      exact hne (by cases a; cases b; simp_all)
    have hlt := Finset.card_lt_card (Finset.ssubset_iff_subset_ne.mpr ⟨h.2, hn⟩)
    unfold infoCard
    omega
  · have hlt := Finset.card_lt_card (Finset.ssubset_iff_subset_ne.mpr ⟨h.1, hs⟩)
    unfold infoCard
    omega

theorem alFind?_cons (p : Coord × CellLine) (rest : ChangeMap) (c : Coord) :
    alFind? (p :: rest) c = if p.1 = c then some p.2 else alFind? rest c := rfl

theorem alFind?_insert (ch : ChangeMap) (c : Coord) (v : CellLine) (c' : Coord) :
    alFind? (alInsert ch c v) c' = if c' = c then some v else alFind? ch c' := by
  induction ch with
  | nil =>
    show alFind? [(c, v)] c' = _
    rw [alFind?_cons]
    by_cases h : c = c'
    · rw [if_pos h, if_pos h.symm]
    · rw [if_neg h, if_neg (fun hh => h hh.symm)]
  | cons p rest ih =>
    show alFind? (if p.1 = c then (c, v) :: rest else p :: alInsert rest c v) c' = _
    by_cases hp : p.1 = c
    · rw [if_pos hp, alFind?_cons, alFind?_cons]
      by_cases hc : c = c'
      · rw [if_pos hc, if_pos hc.symm]
      · rw [if_neg hc, if_neg (fun hh => hc hh.symm),
          if_neg (fun hh : p.1 = c' => hc (hp.symm.trans hh))]
    · rw [if_neg hp, alFind?_cons, alFind?_cons, ih]
      by_cases hpc : p.1 = c'
      · have hc : ¬(c' = c) := fun hh => hp (hpc.trans hh)
        rw [if_pos hpc, if_neg hc, if_pos hpc]
      · by_cases hc : c' = c
        · rw [if_neg hpc, if_pos hc, if_pos hc]
        · rw [if_neg hpc, if_neg hc, if_neg hc, if_neg hpc]

theorem mem_alInsert {ch : ChangeMap} {c : Coord} {v : CellLine} {p : Coord × CellLine}
    (h : p ∈ alInsert ch c v) : p = (c, v) ∨ p ∈ ch := by
  induction ch with
  | nil => simpa [alInsert] using h
  | cons q rest ih =>
    simp only [alInsert] at h
    by_cases hq : q.1 = c
    · rw [if_pos hq] at h
      rcases List.mem_cons.mp h with h1 | h2
      · exact Or.inl h1
      · exact Or.inr (List.mem_cons_of_mem _ h2)
    · rw [if_neg hq] at h
      rcases List.mem_cons.mp h with h1 | h2
      · exact Or.inr (h1 ▸ List.mem_cons_self _ _)
      · rcases ih h2 with h3 | h4
        · exact Or.inl h3
        · exact Or.inr (List.mem_cons_of_mem _ h4)

theorem alFind?_mem {ch : ChangeMap} {c : Coord} {v : CellLine} (h : alFind? ch c = some v) :
    (c, v) ∈ ch := by
  induction ch with
  | nil => simp [alFind?] at h
  | cons p rest ih =>
    rw [alFind?_cons] at h
    by_cases hp : p.1 = c
    · rw [if_pos hp] at h
      injection h with h2
      have : p = (c, v) := by
        cases p
        simp_all
      exact this ▸ List.mem_cons_self _ _
    · rw [if_neg hp] at h
      exact List.mem_cons_of_mem _ (ih h)

theorem lookupCM_insert (b : Board) (ch : ChangeMap) (c : Coord) (v : CellLine) (c' : Coord) :
    lookupCM b (alInsert ch c v) c' = if c' = c then some v else lookupCM b ch c' := by
  unfold lookupCM
  rw [alFind?_insert]
  by_cases hc : c' = c
  · rw [if_pos hc, if_pos hc]
  · rw [if_neg hc, if_neg hc]

/-- Invariant carried by the pending-changes overlay during propagation:
every staged cell is an in-grid, invariant-satisfying refinement of the
committed cell with the edge exclusions intact. -/
def ChInv (b : Board) (ch : ChangeMap) : Prop :=
  ∀ p ∈ ch, inGrid b p.1 ∧ Inv p.2 ∧
    edges_at b.width b.height p.1.1 p.1.2 ⊆ p.2.cannot_set ∧
    (∀ base, b.cellAt p.1 = some base → cellLe base p.2)

/-- Worklist entries always have a staged cell. -/
def QInv (ch : ChangeMap) (q : List Coord) : Prop :=
  ∀ c ∈ q, (alFind? ch c).isSome

/-- The overlay only gains information. -/
def ovLe (b : Board) (ch ch' : ChangeMap) : Prop :=
  ∀ c cell, lookupCM b ch c = some cell →
    ∃ cell', lookupCM b ch' c = some cell' ∧ cellLe cell cell'

theorem ovLe_refl (b : Board) (ch : ChangeMap) : ovLe b ch ch :=
  fun _ cell h => ⟨cell, h, cellLe_refl cell⟩

theorem ovLe_trans {b : Board} {c1 c2 c3 : ChangeMap} (h1 : ovLe b c1 c2) (h2 : ovLe b c2 c3) :
    ovLe b c1 c3 := by
  intro c cell h
  obtain ⟨m, hm, hle1⟩ := h1 c cell h
  obtain ⟨f, hf, hle2⟩ := h2 c m hm
  exact ⟨f, hf, cellLe_trans hle1 hle2⟩

theorem ovLe_insert {b : Board} {ch : ChangeMap} {m : Coord} {old v : CellLine}
    (hold : lookupCM b ch m = some old) (hle : cellLe old v) :
    ovLe b ch (alInsert ch m v) := by
  intro c cell h
  rw [lookupCM_insert]
  by_cases hc : c = m
  · rw [if_pos hc]
    refine ⟨v, rfl, ?_⟩
    rw [hc] at h
    rw [hold] at h
    injection h with h2
    rw [h2] at hle
    exact hle
  · rw [if_neg hc]
    exact ⟨cell, h, cellLe_refl cell⟩

theorem lookupCM_good {b : Board} {ch : ChangeMap} {c : Coord} {cell : CellLine}
    (hv : ValidBoard b) (hch : ChInv b ch) (h : lookupCM b ch c = some cell) :
    inGrid b c ∧ Inv cell ∧ edges_at b.width b.height c.1 c.2 ⊆ cell.cannot_set ∧
      (∀ base, b.cellAt c = some base → cellLe base cell) := by
  unfold lookupCM at h
  cases hf : alFind? ch c with
  | some v =>
    rw [hf] at h
    dsimp only at h
    injection h with h2
    subst h2
    exact hch (c, v) (alFind?_mem hf)
  | none =>
    rw [hf] at h
    dsimp only at h
    refine ⟨cellAt_some_inGrid h, (valid_cellAt hv h).1, (valid_cellAt hv h).2, ?_⟩
    intro base hbase
    rw [h] at hbase
    injection hbase with h2
    rw [h2]
    exact cellLe_refl base

theorem inGrid_lookupCM_isSome {b : Board} (hv : ValidBoard b) {ch : ChangeMap} {c : Coord}
    (h : inGrid b c) : ∃ cell, lookupCM b ch c = some cell := by
  unfold lookupCM
  cases hf : alFind? ch c with
  | some v => exact ⟨v, rfl⟩
  | none =>
    obtain ⟨cell, hcell⟩ := inGrid_cellAt_isSome hv h
    exact ⟨cell, hcell⟩


/-! ## Propagation soundness -/

theorem liftCell_error {x : Except CellErr CellLine} {e : Err} (h : liftCell x = .error e) :
    e = .contradiction ∨ e = .assertFail := by
  cases x with
  | ok v => simp [liftCell] at h
  | error ce =>
    cases ce with
    | contradiction =>
      injection h with h2
      exact Or.inl h2.symm
    | assertFail =>
      injection h with h2
      exact Or.inr h2.symm

theorem stepSet_eq (b : Board) (src : Coord) (d : Direction) (ch : ChangeMap) (q : List Coord) :
    stepSet b src d ch q =
      (match lookupCM b ch (d.move src) with
       | none => Except.error Err.keyErr
       | some old =>
         match liftCell (old.set_direction d.opposite) with
         | Except.error e => Except.error e
         | Except.ok new =>
           if new = old then Except.ok (ch, q)
           else Except.ok (alInsert ch (d.move src) new, q ++ [d.move src])) := rfl

theorem stepUnset_eq (b : Board) (src : Coord) (d : Direction) (ch : ChangeMap) (q : List Coord) :
    stepUnset b src d ch q =
      (match lookupCM b ch (d.move src) with
       | none => Except.ok (ch, q)
       | some old =>
         match liftCell (old.disallow_direction d.opposite) with
         | Except.error e => Except.error e
         | Except.ok new =>
           if new = old then Except.ok (ch, q)
           else Except.ok (alInsert ch (d.move src) new, q ++ [d.move src])) := rfl

theorem foldDirs_cons
    (step : Direction → ChangeMap → List Coord → Except Err (ChangeMap × List Coord))
    (d : Direction) (ds : List Direction) (ch : ChangeMap) (q : List Coord) :
    foldDirs step (d :: ds) ch q =
      (match step d ch q with
       | Except.error e => Except.error e
       | Except.ok (ch2, q2) => foldDirs step ds ch2 q2) := rfl

theorem propGo_cons (b : Board) (fuel : Nat) (c : Coord) (rest : List Coord) (ch : ChangeMap) :
    propGo b (fuel + 1) (c :: rest) ch =
      (match alFind? ch c with
       | none => Except.error Err.assertFail
       | some cell =>
         match foldDirs (stepSet b c)
             (dirList.filter (fun d => decide (d ∈ cell.is_set))) ch rest with
         | Except.error e => Except.error e
         | Except.ok (ch2, q2) =>
           match foldDirs (stepUnset b c)
               (dirList.filter (fun d => decide (d ∈ cell.cannot_set))) ch2 q2 with
           | Except.error e => Except.error e
           | Except.ok (ch3, q3) => propGo b fuel q3 ch3) := rfl

theorem stepSet_sound {b : Board} (hv : ValidBoard b) {src : Coord} {cell : CellLine}
    {d : Direction} {ch : ChangeMap} {q : List Coord}
    (hch : ChInv b ch) (hq : QInv ch q) (hsrc : lookupCM b ch src = some cell)
    (hd : d ∈ cell.is_set) :
    (stepSet b src d ch q ≠ .error .keyErr) ∧
    (∀ ch' q', stepSet b src d ch q = .ok (ch', q') →
      ChInv b ch' ∧ QInv ch' q' ∧ lookupCM b ch' src = some cell ∧ ovLe b ch ch') := by
  obtain ⟨hgsrc, hInvSrc, hEdgeSrc, _⟩ := lookupCM_good hv hch hsrc
  have hdE : d ∉ edges_at b.width b.height src.1 src.2 := by
    intro hmem
    have hdn : d ∈ cell.cannot_set := hEdgeSrc hmem
    have hmem2 : d ∈ cell.is_set ∩ cell.cannot_set := Finset.mem_inter.mpr ⟨hd, hdn⟩
    rw [Inv_disjoint cell hInvSrc] at hmem2
    exact Finset.not_mem_empty d hmem2
  have hgm : inGrid b (d.move src) := move_inGrid hgsrc hdE
  obtain ⟨old, hold⟩ := @inGrid_lookupCM_isSome b hv ch (d.move src) hgm
  obtain ⟨hgold, hInvOld, hEdgeOld, hBaseOld⟩ := lookupCM_good hv hch hold
  rw [stepSet_eq, hold]
  dsimp only
  cases hsd : liftCell (old.set_direction d.opposite) with
  | error e =>
    dsimp only
    refine ⟨?_, fun ch' q' h => Except.noConfusion h⟩
    intro hcon
    injection hcon with h2
    rcases liftCell_error hsd with h3 | h3 <;> rw [h3] at h2 <;> exact Err.noConfusion h2
  | ok new =>
    dsimp only
    have hstep : cellStep old new := by
      have hs := set_direction_cellStep old d.opposite hInvOld
      rw [hsd] at hs
      exact hs
    by_cases hnew : new = old
    · rw [if_pos hnew]
      refine ⟨fun h => Except.noConfusion h, fun ch' q' h => ?_⟩
      injection h with h2
      injection h2 with h3 h4
      subst h3
      subst h4
      exact ⟨hch, hq, hsrc, ovLe_refl b ch⟩
    · rw [if_neg hnew]
      refine ⟨fun h => Except.noConfusion h, fun ch' q' h => ?_⟩
      injection h with h2
      injection h2 with h3 h4
      subst h3
      subst h4
      refine ⟨?_, ?_, ?_, ovLe_insert hold hstep.2.1⟩
      · intro p hp
        rcases mem_alInsert hp with h3 | h3
        · rw [h3]
          refine ⟨hgm, hstep.1, ?_, ?_⟩
          · exact Finset.Subset.trans hEdgeOld hstep.2.1.2
          · intro base hbase
            exact cellLe_trans (hBaseOld base hbase) hstep.2.1
        · exact hch p h3
      · intro c hc
        rw [alFind?_insert]
        rcases List.mem_append.mp hc with h3 | h3
        · by_cases hcm : c = d.move src
          · rw [if_pos hcm]
            rfl
          · rw [if_neg hcm]
            exact hq c h3
        · rw [List.mem_singleton.mp h3, if_pos rfl]
          rfl
      · rw [lookupCM_insert]
        rw [if_neg (fun h3 => move_ne d src h3.symm)]
        exact hsrc

theorem stepUnset_sound {b : Board} (hv : ValidBoard b) {src : Coord} {cell : CellLine}
    {d : Direction} {ch : ChangeMap} {q : List Coord}
    (hch : ChInv b ch) (hq : QInv ch q) (hsrc : lookupCM b ch src = some cell) :
    (stepUnset b src d ch q ≠ .error .keyErr) ∧
    (∀ ch' q', stepUnset b src d ch q = .ok (ch', q') →
      ChInv b ch' ∧ QInv ch' q' ∧ lookupCM b ch' src = some cell ∧ ovLe b ch ch') := by
  rw [stepUnset_eq]
  cases hold : lookupCM b ch (d.move src) with
  | none =>
    dsimp only
    refine ⟨fun h => Except.noConfusion h, fun ch' q' h => ?_⟩
    injection h with h2
    injection h2 with h3 h4
    subst h3
    subst h4
    exact ⟨hch, hq, hsrc, ovLe_refl b ch⟩
  | some old =>
    dsimp only
    obtain ⟨hgold, hInvOld, hEdgeOld, hBaseOld⟩ := lookupCM_good hv hch hold
    have hgm : inGrid b (d.move src) := hgold
    cases hsd : liftCell (old.disallow_direction d.opposite) with
    | error e =>
      dsimp only
      refine ⟨?_, fun ch' q' h => Except.noConfusion h⟩
      intro hcon
      injection hcon with h2
      rcases liftCell_error hsd with h3 | h3 <;> rw [h3] at h2 <;> exact Err.noConfusion h2
    | ok new =>
      dsimp only
      have hstep : cellStep old new := by
        have hs := disallow_direction_cellStep old d.opposite hInvOld
        rw [hsd] at hs
        exact hs
      by_cases hnew : new = old
      · rw [if_pos hnew]
        refine ⟨fun h => Except.noConfusion h, fun ch' q' h => ?_⟩
        injection h with h2
        injection h2 with h3 h4
        subst h3
        subst h4
        exact ⟨hch, hq, hsrc, ovLe_refl b ch⟩
      · rw [if_neg hnew]
        refine ⟨fun h => Except.noConfusion h, fun ch' q' h => ?_⟩
        injection h with h2
        injection h2 with h3 h4
        subst h3
        subst h4
        refine ⟨?_, ?_, ?_, ovLe_insert hold hstep.2.1⟩
        · intro p hp
          rcases mem_alInsert hp with h3 | h3
          · rw [h3]
            refine ⟨hgm, hstep.1, ?_, ?_⟩
            · exact Finset.Subset.trans hEdgeOld hstep.2.1.2
            · intro base hbase
              exact cellLe_trans (hBaseOld base hbase) hstep.2.1
          · exact hch p h3
        · intro c hc
          rw [alFind?_insert]
          rcases List.mem_append.mp hc with h3 | h3
          · by_cases hcm : c = d.move src
            · rw [if_pos hcm]
              rfl
            · rw [if_neg hcm]
              exact hq c h3
          · rw [List.mem_singleton.mp h3, if_pos rfl]
            rfl
        · rw [lookupCM_insert]
          rw [if_neg (fun h3 => move_ne d src h3.symm)]
          exact hsrc

theorem foldDirs_set_sound {b : Board} (hv : ValidBoard b) {src : Coord} {cell : CellLine} :
    ∀ (ds : List Direction) (ch : ChangeMap) (q : List Coord),
      ChInv b ch → QInv ch q → lookupCM b ch src = some cell →
      (∀ d ∈ ds, d ∈ cell.is_set) →
      (foldDirs (stepSet b src) ds ch q ≠ .error .keyErr) ∧
      (∀ ch' q', foldDirs (stepSet b src) ds ch q = .ok (ch', q') →
        ChInv b ch' ∧ QInv ch' q' ∧ lookupCM b ch' src = some cell ∧ ovLe b ch ch') := by
  intro ds
  induction ds with
  | nil =>
    intro ch q hch hq hsrc _
    refine ⟨fun h => Except.noConfusion h, fun ch' q' h => ?_⟩
    injection h with h2
    injection h2 with h3 h4
    subst h3
    subst h4
    exact ⟨hch, hq, hsrc, ovLe_refl b ch⟩
  | cons d ds ih =>
    intro ch q hch hq hsrc hmem
    have hstep := stepSet_sound hv hch hq hsrc (hmem d (List.mem_cons_self d ds))
    rw [foldDirs_cons]
    cases hs : stepSet b src d ch q with
    | error e =>
      dsimp only
      refine ⟨?_, fun ch' q' h => Except.noConfusion h⟩
      intro hcon
      injection hcon with h2
      rw [h2] at hs
      exact hstep.1 hs
    | ok p =>
      obtain ⟨ch2, q2⟩ := p
      dsimp only
      obtain ⟨hch2, hq2, hsrc2, hle1⟩ := hstep.2 ch2 q2 hs
      have hrest := ih ch2 q2 hch2 hq2 hsrc2 (fun d' hd' => hmem d' (List.mem_cons_of_mem d hd'))
      refine ⟨hrest.1, fun ch' q' h => ?_⟩
      obtain ⟨hch3, hq3, hsrc3, hle2⟩ := hrest.2 ch' q' h
      exact ⟨hch3, hq3, hsrc3, ovLe_trans hle1 hle2⟩

theorem foldDirs_unset_sound {b : Board} (hv : ValidBoard b) {src : Coord} {cell : CellLine} :
    ∀ (ds : List Direction) (ch : ChangeMap) (q : List Coord),
      ChInv b ch → QInv ch q → lookupCM b ch src = some cell →
      (foldDirs (stepUnset b src) ds ch q ≠ .error .keyErr) ∧
      (∀ ch' q', foldDirs (stepUnset b src) ds ch q = .ok (ch', q') →
        ChInv b ch' ∧ QInv ch' q' ∧ lookupCM b ch' src = some cell ∧ ovLe b ch ch') := by
  intro ds
  induction ds with
  | nil =>
    intro ch q hch hq hsrc
    refine ⟨fun h => Except.noConfusion h, fun ch' q' h => ?_⟩
    injection h with h2
    injection h2 with h3 h4
    subst h3
    subst h4
    exact ⟨hch, hq, hsrc, ovLe_refl b ch⟩
  | cons d ds ih =>
    intro ch q hch hq hsrc
    have hstep := stepUnset_sound (d := d) hv hch hq hsrc
    rw [foldDirs_cons]
    cases hs : stepUnset b src d ch q with
    | error e =>
      dsimp only
      refine ⟨?_, fun ch' q' h => Except.noConfusion h⟩
      intro hcon
      injection hcon with h2
      rw [h2] at hs
      exact hstep.1 hs
    | ok p =>
      obtain ⟨ch2, q2⟩ := p
      dsimp only
      obtain ⟨hch2, hq2, hsrc2, hle1⟩ := hstep.2 ch2 q2 hs
      have hrest := ih ch2 q2 hch2 hq2 hsrc2
      refine ⟨hrest.1, fun ch' q' h => ?_⟩
      obtain ⟨hch3, hq3, hsrc3, hle2⟩ := hrest.2 ch' q' h
      exact ⟨hch3, hq3, hsrc3, ovLe_trans hle1 hle2⟩

theorem propGo_sound {b : Board} (hv : ValidBoard b) :
    ∀ (fuel : Nat) (q : List Coord) (ch : ChangeMap), ChInv b ch → QInv ch q →
      (propGo b fuel q ch ≠ .error .keyErr) ∧
      (∀ ch', propGo b fuel q ch = .ok ch' → ChInv b ch' ∧ ovLe b ch ch') := by
  intro fuel
  induction fuel with
  | zero =>
    intro q ch _ _
    refine ⟨fun h => ?_, fun ch' h => ?_⟩
    · injection h with h2
      exact Err.noConfusion h2
    · exact Except.noConfusion h
  | succ fuel ih =>
    intro q ch hch hq
    cases q with
    | nil =>
      refine ⟨fun h => Except.noConfusion h, fun ch' h => ?_⟩
      injection h with h2
      rw [← h2]
      exact ⟨hch, ovLe_refl b ch⟩
    | cons c rest =>
      have hcsome := hq c (List.mem_cons_self c rest)
      cases hfind : alFind? ch c with
      | none =>
        rw [hfind] at hcsome
        cases hcsome
      | some cell =>
        have hlook : lookupCM b ch c = some cell := by
          unfold lookupCM
          rw [hfind]
        have hQrest : QInv ch rest := fun c' hc' => hq c' (List.mem_cons_of_mem c hc')
        rw [propGo_cons, hfind]
        dsimp only
        have hmem1 : ∀ d ∈ dirList.filter (fun d => decide (d ∈ cell.is_set)),
            d ∈ cell.is_set := by
          intro d hd
          exact of_decide_eq_true (List.mem_filter.mp hd).2
        have hfold1 := foldDirs_set_sound hv
          (dirList.filter (fun d => decide (d ∈ cell.is_set))) ch rest hch hQrest hlook hmem1
        cases hf1 : foldDirs (stepSet b c)
            (dirList.filter (fun d => decide (d ∈ cell.is_set))) ch rest with
        | error e =>
          dsimp only
          refine ⟨?_, fun ch' h => Except.noConfusion h⟩
          intro hcon
          injection hcon with h2
          rw [h2] at hf1
          exact hfold1.1 hf1
        | ok p =>
          obtain ⟨ch2, q2⟩ := p
          dsimp only
          obtain ⟨hch2, hq2, hsrc2, hle1⟩ := hfold1.2 ch2 q2 hf1
          have hfold2 := foldDirs_unset_sound hv
            (dirList.filter (fun d => decide (d ∈ cell.cannot_set))) ch2 q2 hch2 hq2 hsrc2
          cases hf2 : foldDirs (stepUnset b c)
              (dirList.filter (fun d => decide (d ∈ cell.cannot_set))) ch2 q2 with
          | error e =>
            dsimp only
            refine ⟨?_, fun ch' h => Except.noConfusion h⟩
            intro hcon
            injection hcon with h2
            rw [h2] at hf2
            exact hfold2.1 hf2
          | ok p2 =>
            obtain ⟨ch3, q3⟩ := p2
            dsimp only
            obtain ⟨hch3, hq3, hsrc3, hle2⟩ := hfold2.2 ch3 q3 hf2
            have hrec := ih q3 ch3 hch3 hq3
            refine ⟨hrec.1, fun ch' h => ?_⟩
            obtain ⟨hch4, hle3⟩ := hrec.2 ch' h
            exact ⟨hch4, ovLe_trans (ovLe_trans hle1 hle2) hle3⟩

/-! ## Flattening the overlay back into a grid; board evolution -/

theorem base_le_lookupCM {b : Board} {ch : ChangeMap} (hch : ChInv b ch)
    {c : Coord} {cell : CellLine} (h : b.cellAt c = some cell) :
    ∃ v, lookupCM b ch c = some v ∧ cellLe cell v := by
  unfold lookupCM
  cases hf : alFind? ch c with
  | none =>
    dsimp only
    exact ⟨cell, h, cellLe_refl cell⟩
  | some v =>
    dsimp only
    exact ⟨v, rfl, (hch (c, v) (alFind?_mem hf)).2.2.2 cell h⟩

theorem keys_QInv : ∀ ch : ChangeMap, QInv ch (ch.map (fun p => p.1)) := by
  intro ch
  induction ch with
  | nil =>
    intro c hc
    cases hc
  | cons p rest ih =>
    intro c hc
    show (alFind? (p :: rest) c).isSome
    rcases List.mem_cons.mp hc with h1 | h1
    · unfold alFind?
      rw [if_pos h1.symm]
      rfl
    · unfold alFind?
      by_cases hp : p.1 = c
      · rw [if_pos hp]
        rfl
      · rw [if_neg hp]
        exact ih c h1

theorem flatten_length (b : Board) (ch : ChangeMap) :
    (flattenOverlay b ch).length = b.height.toNat := by
  simp [flattenOverlay]

theorem flatten_row_length (b : Board) (ch : ChangeMap) :
    ∀ row ∈ flattenOverlay b ch, row.length = b.width.toNat := by
  intro row hrow
  unfold flattenOverlay at hrow
  obtain ⟨y, hy, hrow2⟩ := List.mem_map.mp hrow
  rw [← hrow2]
  simp

theorem clAt_flatten {b : Board} (hv : ValidBoard b) (ch : ChangeMap) {c : Coord}
    (hg : inGrid b c) :
    clAt b.width b.height (flattenOverlay b ch) c = lookupCM b ch c := by
  obtain ⟨hx0, hxw, hy0, hyh⟩ := hg
  have hg2 : inGrid b c := ⟨hx0, hxw, hy0, hyh⟩
  unfold clAt flattenOverlay
  rw [if_pos ⟨hx0, hxw, hy0, hyh⟩]
  rw [List.get?_map]
  rw [List.get?_range (show c.2.toNat < b.height.toNat by omega)]
  simp only [Option.map_some', Option.some_bind]
  rw [List.get?_map]
  rw [List.get?_range (show c.1.toNat < b.width.toNat by omega)]
  simp only [Option.map_some']
  have hc : ((c.1.toNat : Int), (c.2.toNat : Int)) = c := by
    obtain ⟨x, y⟩ := c
    rw [Prod.mk.injEq]
    constructor <;> simp <;> omega
  simp only [Int.ofNat_eq_natCast]
  rw [hc]
  obtain ⟨v, hvv⟩ := @inGrid_lookupCM_isSome b hv ch c hg2
  rw [hvv]

theorem evolve_ok {b : Board} {cl : List (List CellLine)} {b' : Board}
    (h : b.evolve cl = .ok b') :
    b'.width = b.width ∧ b'.height = b.height ∧ b'.circles = b.circles ∧
      b'.cell_lines = cl := by
  unfold Board.evolve at h
  cases ht : trackSegments b cl with
  | error e =>
    rw [ht] at h
    cases e with
    | loopE L =>
      dsimp only at h
      cases hvs : validate_solved L b.circles with
      | error e2 =>
        rw [hvs] at h
        exact Except.noConfusion h
      | ok u =>
        rw [hvs] at h
        exact Except.noConfusion h
    | contradiction => exact Except.noConfusion h
    | solved bb => exact Except.noConfusion h
    | keyErr => exact Except.noConfusion h
    | assertFail => exact Except.noConfusion h
    | fuelOut => exact Except.noConfusion h
  | ok segs =>
    rw [ht] at h
    dsimp only at h
    injection h with h2
    rw [← h2]
    exact ⟨rfl, rfl, rfl, rfl⟩

/-- A solver step only refines the board: dimensions and pearls are kept,
every cell only gains information. -/
def boardLe (b b' : Board) : Prop :=
  b'.width = b.width ∧ b'.height = b.height ∧ b'.circles = b.circles ∧
  ∀ c cell, b.cellAt c = some cell → ∃ cell', b'.cellAt c = some cell' ∧ cellLe cell cell'

theorem boardLe_refl (b : Board) : boardLe b b :=
  ⟨rfl, rfl, rfl, fun _ cell h => ⟨cell, h, cellLe_refl cell⟩⟩

theorem boardLe_trans {a b c : Board} (h1 : boardLe a b) (h2 : boardLe b c) : boardLe a c := by
  refine ⟨h2.1.trans h1.1, h2.2.1.trans h1.2.1, h2.2.2.1.trans h1.2.2.1, ?_⟩
  intro co cell h
  obtain ⟨m, hm, hle1⟩ := h1.2.2.2 co cell h
  obtain ⟨f, hf, hle2⟩ := h2.2.2.2 co m hm
  exact ⟨f, hf, cellLe_trans hle1 hle2⟩

theorem propagate_change_sound {b : Board} (hv : ValidBoard b) {changes : ChangeMap}
    (hch : ChInv b changes) :
    ∀ b', b.propagate_change changes = .ok b' →
      ValidBoard b' ∧ boardLe b b' ∧
      (∀ c cellS, alFind? changes c = some cellS →
        ∃ v, b'.cellAt c = some v ∧ cellLe cellS v) := by
  intro b' h
  unfold Board.propagate_change at h
  cases hp : propGo b (propFuel b) (changes.map (fun p => p.1)) changes with
  | error e =>
    rw [hp] at h
    dsimp only at h
    exact Except.noConfusion h
  | ok ch =>
    rw [hp] at h
    dsimp only at h
    obtain ⟨hchf, hov⟩ :=
      (propGo_sound hv (propFuel b) (changes.map (fun p => p.1)) changes hch
        (keys_QInv changes)).2 ch hp
    obtain ⟨hw, hh, hcirc, hcl⟩ := evolve_ok h
    have hcellAt : ∀ c : Coord, inGrid b c → b'.cellAt c = lookupCM b ch c := by
      intro c hg
      show clAt b'.width b'.height b'.cell_lines c = _
      rw [hw, hh, hcl]
      exact clAt_flatten hv ch hg
    refine ⟨⟨?_, ?_, ?_⟩, ⟨hw, hh, hcirc, ?_⟩, ?_⟩
    · rw [hcl, hh]
      exact flatten_length b ch
    · intro row hrow
      rw [hcl] at hrow
      rw [hw]
      exact flatten_row_length b ch row hrow
    · intro c hcmem
      rw [hw, hh] at hcmem
      have hg : inGrid b c := mem_gridCoords.mp hcmem
      rw [hcellAt c hg, hw, hh]
      obtain ⟨v, hvv⟩ := @inGrid_lookupCM_isSome b hv ch c hg
      rw [hvv]
      obtain ⟨_, hInv, hEdge, _⟩ := lookupCM_good hv hchf hvv
      exact ⟨hInv, hEdge⟩
    · intro c cell hc
      have hg := cellAt_some_inGrid hc
      rw [hcellAt c hg]
      obtain ⟨v1, hv1, hle1⟩ := base_le_lookupCM hch hc
      obtain ⟨v2, hv2, hle2⟩ := hov c v1 hv1
      exact ⟨v2, hv2, cellLe_trans hle1 hle2⟩
    · intro c cellS hf
      have h1 : lookupCM b changes c = some cellS := by
        unfold lookupCM
        rw [hf]
      have hg : inGrid b c := (hch (c, cellS) (alFind?_mem hf)).1
      rw [hcellAt c hg]
      exact hov c cellS h1

/-! ## The termination measure -/

theorem cellAt_grid {b : Board} {x y : Nat} (hx : x < b.width.toNat)
    (hy : y < b.height.toNat) :
    b.cellAt (Int.ofNat x, Int.ofNat y) = (b.cell_lines.get? y).bind (fun r => r.get? x) := by
  unfold Board.cellAt clAt
  rw [if_pos]
  · rfl
  · refine ⟨?_, ?_, ?_, ?_⟩ <;> simp only [Int.ofNat_eq_natCast] <;> omega

theorem cells_ext {b b2 : Board} (hv : ValidBoard b) (hv2 : ValidBoard b2)
    (hw : b2.width = b.width) (hh : b2.height = b.height)
    (hc : ∀ c ∈ gridCoords b.width b.height, b.cellAt c = b2.cellAt c) :
    b.cell_lines = b2.cell_lines := by
  apply List.ext_get?
  intro n
  by_cases hn : n < b.height.toNat
  · cases hrow : b.cell_lines.get? n with
    | none =>
      exfalso
      have h1 := List.get?_eq_none.mp hrow
      rw [hv.1] at h1
      omega
    | some row =>
      cases hrow2 : b2.cell_lines.get? n with
      | none =>
        exfalso
        have h1 := List.get?_eq_none.mp hrow2
        rw [hv2.1, hh] at h1
        omega
      | some row2 =>
        have hrl : row.length = b.width.toNat := hv.2.1 row (List.get?_mem hrow)
        have hrl2 : row2.length = b.width.toNat := by
          have h1 := hv2.2.1 row2 (List.get?_mem hrow2)
          rw [hw] at h1
          exact h1
        suffices hrr : row = row2 by rw [hrr]
        apply List.ext_get?
        intro m
        by_cases hm : m < b.width.toNat
        · have hmem : (Int.ofNat m, Int.ofNat n) ∈ gridCoords b.width b.height := by
            rw [mem_gridCoords]
            refine ⟨?_, ?_, ?_, ?_⟩ <;> simp only [Int.ofNat_eq_natCast] <;> omega
          have h1 := cellAt_grid (b := b) hm hn
          have h2 := cellAt_grid (b := b2) (by rw [hw]; exact hm) (by rw [hh]; exact hn)
          have heq := hc _ hmem
          rw [h1, h2, hrow, hrow2] at heq
          simp only [Option.some_bind] at heq
          exact heq
        · rw [List.get?_eq_none.mpr (by rw [hrl]; omega),
            List.get?_eq_none.mpr (by rw [hrl2]; omega)]
  · rw [List.get?_eq_none.mpr (by rw [hv.1]; omega),
      List.get?_eq_none.mpr (by rw [hv2.1, hh]; omega)]

theorem infoCard_le_eight (c : CellLine) : infoCard c ≤ 8 := by
  have h4 : Fintype.card Direction = 4 := rfl
  have h1 := Finset.card_le_univ c.is_set
  have h2 := Finset.card_le_univ c.cannot_set
  rw [h4] at h1 h2
  unfold infoCard
  omega

theorem slack_le {b b2 : Board} (hv : ValidBoard b) (hle : boardLe b b2) :
    slackSum b2 ≤ slackSum b := by
  unfold slackSum
  rw [hle.1, hle.2.1]
  apply List.sum_le_sum
  intro c hcmem
  have hg : inGrid b c := mem_gridCoords.mp hcmem
  obtain ⟨cell, hcell⟩ := inGrid_cellAt_isSome hv hg
  obtain ⟨cell2, hcell2, hcle⟩ := hle.2.2.2 c cell hcell
  rw [hcell, hcell2]
  have hmono := infoCard_mono hcle
  unfold infoCard at hmono
  dsimp only [Option.getD]
  omega

theorem slack_lt {b b2 : Board} (hv : ValidBoard b) (hv2 : ValidBoard b2)
    (hle : boardLe b b2) (hne : b2.cell_lines ≠ b.cell_lines) :
    slackSum b2 < slackSum b := by
  have hdiff : ∃ c ∈ gridCoords b.width b.height, b.cellAt c ≠ b2.cellAt c := by
    by_contra hno
    push_neg at hno
    exact hne ((cells_ext hv hv2 hle.1 hle.2.1 (fun c hcm => hno c hcm)).symm)
  obtain ⟨c0, hc0mem, hc0⟩ := hdiff
  unfold slackSum
  rw [hle.1, hle.2.1]
  apply List.sum_lt_sum
  · intro c hcmem
    have hg : inGrid b c := mem_gridCoords.mp hcmem
    obtain ⟨cell, hcell⟩ := inGrid_cellAt_isSome hv hg
    obtain ⟨cell2, hcell2, hcle⟩ := hle.2.2.2 c cell hcell
    rw [hcell, hcell2]
    have hmono := infoCard_mono hcle
    unfold infoCard at hmono
    dsimp only [Option.getD]
    omega
  · refine ⟨c0, hc0mem, ?_⟩
    have hg : inGrid b c0 := mem_gridCoords.mp hc0mem
    obtain ⟨cell, hcell⟩ := inGrid_cellAt_isSome hv hg
    obtain ⟨cell2, hcell2, hcle⟩ := hle.2.2.2 c0 cell hcell
    have hnecell : cell ≠ cell2 := by
      intro he
      apply hc0
      rw [hcell, hcell2, he]
    have hstrict := infoCard_strict hcle hnecell
    have h8 := infoCard_le_eight cell2
    rw [hcell, hcell2]
    unfold infoCard at hstrict h8
    dsimp only [Option.getD]
    omega

theorem slack_eq_of_cl {b b2 : Board} (hw : b2.width = b.width) (hh : b2.height = b.height)
    (hcl : b2.cell_lines = b.cell_lines) : slackSum b2 = slackSum b := by
  have hce : ∀ c : Coord, b2.cellAt c = b.cellAt c := by
    intro c
    show clAt b2.width b2.height b2.cell_lines c = clAt b.width b.height b.cell_lines c
    rw [hw, hh, hcl]
  unfold slackSum
  rw [hw, hh]
  simp only [hce]

/-! ## Every solver operation is a monotone refinement step -/

/-- A solver operation on a valid board either raises, or returns a valid
refinement; and if the returned cell grid is unchanged the whole board is
returned unchanged (mutators short-circuit on no-op cell updates). -/
def stepOK (b : Board) (r : Except Err Board) : Prop :=
  ∀ b', r = .ok b' → ValidBoard b' ∧ boardLe b b' ∧ (b'.cell_lines = b.cell_lines → b' = b)

theorem stepOK_ok {b : Board} (hv : ValidBoard b) : stepOK b (.ok b) := by
  intro b' h
  injection h with h2
  subst h2
  exact ⟨hv, boardLe_refl b, fun _ => rfl⟩

theorem stepOK_error {b : Board} {e : Err} : stepOK b (.error e) :=
  fun _ h => Except.noConfusion h

/-- Compose one committed refinement step with what follows it. -/
theorem stepOK_lift {b b1 : Board} {r : Except Err Board} (hv : ValidBoard b)
    (h1 : ValidBoard b1 ∧ boardLe b b1 ∧ (b1.cell_lines = b.cell_lines → b1 = b))
    (h2 : stepOK b1 r) : stepOK b r := by
  intro b' h
  obtain ⟨hv1, hle1, hid1⟩ := h1
  obtain ⟨hv', hle2, hid2⟩ := h2 b' h
  refine ⟨hv', boardLe_trans hle1 hle2, ?_⟩
  intro hcl
  by_cases hb1 : b1.cell_lines = b.cell_lines
  · have hbb : b1 = b := hid1 hb1
    rw [hbb] at hid2
    exact hid2 hcl
  · exfalso
    have hlt : slackSum b1 < slackSum b := slack_lt hv hv1 hle1 hb1
    have hle3 : slackSum b' ≤ slackSum b1 := slack_le hv1 hle2
    have heq : slackSum b' = slackSum b :=
      slack_eq_of_cl (boardLe_trans hle1 hle2).1 (boardLe_trans hle1 hle2).2.1 hcl
    omega

theorem catchContra_ok_some {a : Type} {r : Except Err a} {v : a}
    (h : catchContra r = .ok (some v)) : r = .ok v := by
  cases r with
  | ok w =>
    injection h with h2
    injection h2 with h3
    rw [h3]
  | error e =>
    cases e with
    | contradiction =>
      injection h with h2
      exact Option.noConfusion h2
    | solved bb => exact Except.noConfusion h
    | loopE L => exact Except.noConfusion h
    | keyErr => exact Except.noConfusion h
    | assertFail => exact Except.noConfusion h
    | fuelOut => exact Except.noConfusion h

theorem propagate_stepOK {b : Board} (hv : ValidBoard b) {x y : Int} {old new : CellLine}
    (hc : b.cellAt (x, y) = some old) (hstep : cellStep old new) (hnew : new ≠ old) :
    stepOK b (b.propagate_change [((x, y), new)]) := by
  intro b' h
  have hch : ChInv b [((x, y), new)] := by
    intro p hp
    have hp2 := List.mem_singleton.mp hp
    subst hp2
    refine ⟨cellAt_some_inGrid hc, hstep.1,
      Finset.Subset.trans (valid_cellAt hv hc).2 hstep.2.1.2, ?_⟩
    intro base hbase
    rw [hc] at hbase
    injection hbase with h2
    rw [← h2]
    exact hstep.2.1
  obtain ⟨hv', hle, hstage⟩ := propagate_change_sound hv hch b' h
  refine ⟨hv', hle, ?_⟩
  intro hcl
  exfalso
  obtain ⟨v, hvc, hvle⟩ := hstage (x, y) new (by simp [alFind?])
  have hsame : b'.cellAt (x, y) = b.cellAt (x, y) := by
    show clAt b'.width b'.height b'.cell_lines (x, y) = clAt b.width b.height b.cell_lines (x, y)
    rw [hle.1, hle.2.1, hcl]
  rw [hsame, hc] at hvc
  injection hvc with h2
  have h1 : infoCard old < infoCard new := by
    rcases hstep.2.2 with he | hlt
    · exact absurd he hnew
    · exact hlt
  have h2b : infoCard new ≤ infoCard v := infoCard_mono hvle
  rw [← h2] at h2b
  omega

theorem set_direction_stepOK {b : Board} (hv : ValidBoard b) (x y : Int) (d : Direction) :
    stepOK b (b.set_direction x y d) := by
  unfold Board.set_direction
  cases hc : b.cellAt (x, y) with
  | none => exact stepOK_error
  | some old =>
    dsimp only
    cases hl : liftCell (old.set_direction d) with
    | error e => exact stepOK_error
    | ok new =>
      dsimp only
      have hstep : cellStep old new := by
        have hs := set_direction_cellStep old d (valid_cellAt hv hc).1
        rw [hl] at hs
        exact hs
      by_cases hnew : new = old
      · rw [if_pos hnew]
        exact stepOK_ok hv
      · rw [if_neg hnew]
        exact propagate_stepOK hv hc hstep hnew

theorem disallow_direction_stepOK {b : Board} (hv : ValidBoard b) (x y : Int) (d : Direction) :
    stepOK b (b.disallow_direction x y d) := by
  unfold Board.disallow_direction
  cases hc : b.cellAt (x, y) with
  | none => exact stepOK_error
  | some old =>
    dsimp only
    cases hl : liftCell (old.disallow_direction d) with
    | error e => exact stepOK_error
    | ok new =>
      dsimp only
      have hstep : cellStep old new := by
        have hs := disallow_direction_cellStep old d (valid_cellAt hv hc).1
        rw [hl] at hs
        exact hs
      by_cases hnew : new = old
      · rw [if_pos hnew]
        exact stepOK_ok hv
      · rw [if_neg hnew]
        exact propagate_stepOK hv hc hstep hnew

theorem set_through_stepOK {b : Board} (hv : ValidBoard b) (x y : Int) :
    stepOK b (b.set_through x y) := by
  unfold Board.set_through
  cases hc : b.cellAt (x, y) with
  | none => exact stepOK_error
  | some old =>
    dsimp only
    cases hl : liftCell old.get_through with
    | error e => exact stepOK_error
    | ok new =>
      dsimp only
      have hstep : cellStep old new := by
        have hs := get_through_cellStep old (valid_cellAt hv hc).1
        rw [hl] at hs
        exact hs
      by_cases hnew : new = old
      · rw [if_pos hnew]
        exact stepOK_ok hv
      · rw [if_neg hnew]
        exact propagate_stepOK hv hc hstep hnew

theorem set_bent_stepOK {b : Board} (hv : ValidBoard b) (x y : Int) :
    stepOK b (b.set_bent x y) := by
  unfold Board.set_bent
  cases hc : b.cellAt (x, y) with
  | none => exact stepOK_error
  | some old =>
    dsimp only
    cases hl : liftCell old.get_bent with
    | error e => exact stepOK_error
    | ok new =>
      dsimp only
      have hstep : cellStep old new := by
        have hs := get_bent_cellStep old (valid_cellAt hv hc).1
        rw [hl] at hs
        exact hs
      by_cases hnew : new = old
      · rw [if_pos hnew]
        exact stepOK_ok hv
      · rw [if_neg hnew]
        exact propagate_stepOK hv hc hstep hnew

theorem set_black_leg_stepOK {b : Board} (hv : ValidBoard b) (x y : Int) (d : Direction) :
    stepOK b (set_black_leg b x y d) := by
  unfold set_black_leg
  dsimp only
  cases hres : b.set_direction x y d with
  | error e => exact stepOK_error
  | ok b1 =>
    dsimp only
    exact stepOK_lift hv (set_direction_stepOK hv x y d b1 hres)
      (set_through_stepOK (set_direction_stepOK hv x y d b1 hres).1
        ((d.move (x, y)).1) ((d.move (x, y)).2))

theorem blackExtend_stepOK (x y : Int) :
    ∀ (ds : List Direction) {b : Board}, ValidBoard b → stepOK b (blackExtend x y ds b) := by
  intro ds
  induction ds with
  | nil => intro b hv; exact stepOK_ok hv
  | cons d ds ih =>
    intro b hv
    show stepOK b (match b.set_through ((d.move (x, y)).1) ((d.move (x, y)).2) with
      | .error e => .error e
      | .ok b2 => blackExtend x y ds b2)
    cases hres : b.set_through ((d.move (x, y)).1) ((d.move (x, y)).2) with
    | error e => exact stepOK_error
    | ok b2 =>
      dsimp only
      exact stepOK_lift hv (set_through_stepOK hv ((d.move (x, y)).1) ((d.move (x, y)).2) b2 hres)
        (ih (set_through_stepOK hv ((d.move (x, y)).1) ((d.move (x, y)).2) b2 hres).1)

theorem blackCommit_stepOK (x y : Int) (could : List Direction) :
    ∀ (ds : List Direction) {b : Board}, ValidBoard b →
      stepOK b (blackCommit x y could ds b) := by
  intro ds
  induction ds with
  | nil => intro b hv; exact stepOK_ok hv
  | cons d ds ih =>
    intro b hv
    show stepOK b (if d.opposite ∈ could then blackCommit x y could ds b
      else match set_black_leg b x y d with
           | .error e => .error e
           | .ok b2 => blackCommit x y could ds b2)
    by_cases ho : d.opposite ∈ could
    · rw [if_pos ho]
      exact ih hv
    · rw [if_neg ho]
      cases hres : set_black_leg b x y d with
      | error e => exact stepOK_error
      | ok b2 =>
        dsimp only
        exact stepOK_lift hv (set_black_leg_stepOK hv x y d b2 hres)
          (ih (set_black_leg_stepOK hv x y d b2 hres).1)

theorem apply_white_stepOK {b : Board} (hv : ValidBoard b) (x y : Int) :
    stepOK b (apply_white b x y) := by
  unfold apply_white
  cases hst : b.set_through x y with
  | error e => exact stepOK_error
  | ok b1 =>
    dsimp only
    have hv1 := (set_through_stepOK hv x y b1 hst).1
    refine stepOK_lift hv (set_through_stepOK hv x y b1 hst) ?_
    cases hc : b1.cellAt (x, y) with
    | none => exact stepOK_error
    | some cell =>
      dsimp only
      by_cases hcard : cell.is_set.card ≠ 2
      · rw [if_pos hcard]
        exact stepOK_ok hv1
      · rw [if_neg hcard]
        cases hcl : catchContra (b1.set_bent ((twoDirs cell.is_set).1.move (x, y)).1
            ((twoDirs cell.is_set).1.move (x, y)).2) with
        | error e => exact stepOK_error
        | ok oleft =>
          dsimp only
          cases hcr : catchContra (b1.set_bent ((twoDirs cell.is_set).2.move (x, y)).1
              ((twoDirs cell.is_set).2.move (x, y)).2) with
          | error e => exact stepOK_error
          | ok oright =>
            dsimp only
            cases oleft with
            | none =>
              cases oright with
              | none => exact stepOK_error
              | some bend_right =>
                dsimp only
                intro b' h
                injection h with h2
                subst h2
                exact set_bent_stepOK hv1 ((twoDirs cell.is_set).2.move (x, y)).1
                  ((twoDirs cell.is_set).2.move (x, y)).2 bend_right (catchContra_ok_some hcr)
            | some bend_left =>
              cases oright with
              | none =>
                dsimp only
                intro b' h
                injection h with h2
                subst h2
                exact set_bent_stepOK hv1 ((twoDirs cell.is_set).1.move (x, y)).1
                  ((twoDirs cell.is_set).1.move (x, y)).2 bend_left (catchContra_ok_some hcl)
              | some o2 =>
                dsimp only
                exact stepOK_ok hv1

theorem apply_black_stepOK {b : Board} (hv : ValidBoard b) (x y : Int) :
    stepOK b (apply_black b x y) := by
  unfold apply_black
  cases hsb : b.set_bent x y with
  | error e => exact stepOK_error
  | ok b1 =>
    dsimp only
    have hv1 := (set_bent_stepOK hv x y b1 hsb).1
    refine stepOK_lift hv (set_bent_stepOK hv x y b1 hsb) ?_
    cases hc : b1.cellAt (x, y) with
    | none => exact stepOK_error
    | some cell =>
      dsimp only
      cases hbe : blackExtend x y (dirList.filter (fun d => decide (d ∈ cell.is_set))) b1 with
      | error e => exact stepOK_error
      | ok b2 =>
        dsimp only
        have hv2 :=
          (blackExtend_stepOK x y (dirList.filter (fun d => decide (d ∈ cell.is_set))) hv1
            b2 hbe).1
        refine stepOK_lift hv1
          (blackExtend_stepOK x y (dirList.filter (fun d => decide (d ∈ cell.is_set))) hv1
            b2 hbe) ?_
        by_cases hdone : cell.is_done = true
        · rw [if_pos hdone]
          exact stepOK_ok hv2
        · rw [if_neg hdone]
          cases hpr : blackProbe b2 x y
              (dirList.filter (fun d => decide (d ∈ cell.could_set))) [] with
          | error e => exact stepOK_error
          | ok could =>
            dsimp only
            exact blackCommit_stepOK x y could could hv2

theorem passGo_stepOK :
    ∀ (l : List (Coord × Circle)) {b : Board}, ValidBoard b → stepOK b (passGo l b) := by
  intro l
  induction l with
  | nil => intro b hv; exact stepOK_ok hv
  | cons p rest ih =>
    intro b hv
    obtain ⟨c, col⟩ := p
    cases col with
    | white =>
      show stepOK b (match apply_white b c.1 c.2 with
        | .error e => .error e
        | .ok b2 => passGo rest b2)
      cases hres : apply_white b c.1 c.2 with
      | error e => exact stepOK_error
      | ok b2 =>
        dsimp only
        exact stepOK_lift hv (apply_white_stepOK hv c.1 c.2 b2 hres)
          (ih (apply_white_stepOK hv c.1 c.2 b2 hres).1)
    | black =>
      show stepOK b (match apply_black b c.1 c.2 with
        | .error e => .error e
        | .ok b2 => passGo rest b2)
      cases hres : apply_black b c.1 c.2 with
      | error e => exact stepOK_error
      | ok b2 =>
        dsimp only
        exact stepOK_lift hv (apply_black_stepOK hv c.1 c.2 b2 hres)
          (ih (apply_black_stepOK hv c.1 c.2 b2 hres).1)

theorem solvePass_stepOK {b : Board} (hv : ValidBoard b) : stepOK b (solvePass b) :=
  passGo_stepOK b.circles hv

/-! ## The fixpoint driver (`solve_known_constraints`) terminates at a
fixpoint -/

theorem pyEq_true_iff {a b : Board} :
    a.pyEq b = true ↔
      a.width = b.width ∧ a.height = b.height ∧ a.circles = b.circles ∧
        a.cell_lines = b.cell_lines := by
  unfold Board.pyEq
  simp [Bool.and_eq_true, decide_eq_true_iff, and_assoc]

theorem solveKCGo_succ (fuel : Nat) (b : Board) :
    solveKCGo (fuel + 1) b =
      (match solvePass b with
       | .error e => .error e
       | .ok b2 => if b.pyEq b2 then .ok b2 else solveKCGo fuel b2) := rfl

theorem solveKCGo_fix :
    ∀ (fuel : Nat) (b : Board), ValidBoard b → ∀ b', solveKCGo fuel b = .ok b' →
      ValidBoard b' ∧ solvePass b' = .ok b' := by
  intro fuel
  induction fuel with
  | zero =>
    intro b _ b' h
    exact Except.noConfusion h
  | succ fuel ih =>
    intro b hv b' h
    rw [solveKCGo_succ] at h
    cases hp : solvePass b with
    | error e =>
      rw [hp] at h
      exact Except.noConfusion h
    | ok b2 =>
      rw [hp] at h
      dsimp only at h
      by_cases hpe : b.pyEq b2 = true
      · rw [if_pos hpe] at h
        injection h with h2
        subst h2
        obtain ⟨hw, hh2, hcirc, hcl⟩ := pyEq_true_iff.mp hpe
        have hid : b2 = b := (solvePass_stepOK hv b2 hp).2.2 hcl.symm
        rw [hid]
        rw [hid] at hp
        exact ⟨hv, hp⟩
      · rw [if_neg hpe] at h
        exact ih b2 (solvePass_stepOK hv b2 hp).1 b' h

theorem solveKCGo_fuel :
    ∀ (n : Nat) (b : Board), ValidBoard b → slackSum b < n →
      ∀ fuel, slackSum b + 1 ≤ fuel → solveKCGo fuel b = solveKCGo (slackSum b + 1) b := by
  intro n
  induction n with
  | zero =>
    intro b _ h
    exact absurd h (Nat.not_lt_zero _)
  | succ n ih =>
    intro b hv hn fuel hf
    obtain ⟨f, rfl⟩ : ∃ f, fuel = f + 1 := ⟨fuel - 1, by omega⟩
    rw [solveKCGo_succ, solveKCGo_succ]
    cases hp : solvePass b with
    | error e => rfl
    | ok b2 =>
      dsimp only
      by_cases hpe : b.pyEq b2 = true
      · simp only [if_pos hpe]
      · simp only [if_neg hpe]
        obtain ⟨hv2, hle2, hid2⟩ := solvePass_stepOK hv b2 hp
        have hclne : b2.cell_lines ≠ b.cell_lines := by
          intro he
          have hbb : b2 = b := hid2 he
          apply hpe
          rw [hbb]
          exact pyEq_true_iff.mpr ⟨rfl, rfl, rfl, rfl⟩
        have hlt : slackSum b2 < slackSum b := slack_lt hv hv2 hle2 hclne
        have h1 := ih b2 hv2 (by omega) f (by omega)
        have h2 := ih b2 hv2 (by omega) (slackSum b) (by omega)
        rw [h1, h2]

/-- C4: on a board satisfying the representation invariant (as every board
the program constructs does), the fixpoint driver `solve_known_constraints`
terminates — any fuel at least the lattice slack plus one computes the same
answer, so the embedded `while` loop stabilizes — and any board it returns
is a fixpoint: one further full pass over every pearl returns a Python-`==`
(structurally) equal board. -/
theorem solve_known_constraints_fixpoint (b : Board) (hv : ValidBoard b) :
    (∀ fuel, slackSum b + 1 ≤ fuel → solveKCGo fuel b = solve_known_constraints b) ∧
    (∀ b', solve_known_constraints b = .ok b' →
      ∃ b2, solvePass b' = .ok b2 ∧ b2.pyEq b' = true) := by
  constructor
  · intro fuel hf
    unfold solve_known_constraints
    exact solveKCGo_fuel (slackSum b + 1) b hv (by omega) fuel hf
  · intro b' h
    obtain ⟨hv', hsp⟩ := solveKCGo_fix (slackSum b + 1) b hv b' h
    exact ⟨b', hsp, pyEq_true_iff.mpr ⟨rfl, rfl, rfl, rfl⟩⟩

theorem solve_known_constraints_fixpoint_witness :
    ValidBoard (initBoard 3 3 [(((1 : Int), (1 : Int)), Circle.white)]) ∧
    ((∀ fuel, slackSum (initBoard 3 3 [(((1 : Int), (1 : Int)), Circle.white)]) + 1 ≤ fuel →
        solveKCGo fuel (initBoard 3 3 [(((1 : Int), (1 : Int)), Circle.white)]) =
          solve_known_constraints (initBoard 3 3 [(((1 : Int), (1 : Int)), Circle.white)])) ∧
      (∀ b', solve_known_constraints (initBoard 3 3 [(((1 : Int), (1 : Int)), Circle.white)]) =
          .ok b' → ∃ b2, solvePass b' = .ok b2 ∧ b2.pyEq b' = true)) :=
  ⟨by decide,
    solve_known_constraints_fixpoint (initBoard 3 3 [(((1 : Int), (1 : Int)), Circle.white)])
      (by decide)⟩

/-! ## Boards reachable by non-failing mutator calls (for the lookup-safety
claim) -/

theorem initBoard_cellAt {w h : Int} {circles : List (Coord × Circle)} {x y : Nat}
    (hx : x < w.toNat) (hy : y < h.toNat) :
    (initBoard w h circles).cellAt (Int.ofNat x, Int.ofNat y) =
      some ⟨∅, edges_at w h (Int.ofNat x) (Int.ofNat y)⟩ := by
  rw [cellAt_grid hx hy]
  show ((((List.range h.toNat).map (fun yy =>
    (List.range w.toNat).map (fun xx =>
      (⟨∅, edges_at w h (Int.ofNat xx) (Int.ofNat yy)⟩ : CellLine)))).get? y).bind
    (fun r => r.get? x)) = _
  rw [List.get?_map, List.get?_range hy]
  simp only [Option.map_some', Option.some_bind]
  rw [List.get?_map, List.get?_range hx]
  simp only [Option.map_some']

theorem initBoard_valid (w h : Int) (circles : List (Coord × Circle)) :
    ValidBoard (initBoard w h circles) := by
  refine ⟨?_, ?_, ?_⟩
  · simp [initBoard]
  · intro row hrow
    obtain ⟨y, hy, hrow2⟩ := List.mem_map.mp hrow
    rw [← hrow2]
    simp [initBoard]
  · intro c hcm
    have hb : inGrid (initBoard w h circles) c := mem_gridCoords.mp hcm
    obtain ⟨hx0, hxw, hy0, hyh⟩ := hb
    have hxw2 : c.1 < w := hxw
    have hyh2 : c.2 < h := hyh
    have hc : (Int.ofNat c.1.toNat, Int.ofNat c.2.toNat) = c := by
      obtain ⟨xx, yy⟩ := c
      rw [Prod.mk.injEq]
      simp only [Int.ofNat_eq_natCast]
      constructor <;> omega
    rw [← hc]
    rw [initBoard_cellAt (by omega) (by omega)]
    exact ⟨Or.inl rfl, Finset.Subset.refl _⟩

theorem runMutator_stepOK {b : Board} (hv : ValidBoard b) (m : BoardMutator) :
    stepOK b (runMutator m b) := by
  cases m with
  | setDir x y d => exact set_direction_stepOK hv x y d
  | disallowDir x y d => exact disallow_direction_stepOK hv x y d
  | through x y => exact set_through_stepOK hv x y
  | bent x y => exact set_bent_stepOK hv x y

/-- The boards the program can hold: an initial board, or the successful
result of one of the four public mutators on a reachable board. -/
inductive Reachable : Board → Prop
  | init (w h : Int) (circles : List (Coord × Circle)) : Reachable (initBoard w h circles)
  | step {b b' : Board} (m : BoardMutator) : Reachable b → runMutator m b = .ok b' →
      Reachable b'

theorem Reachable_valid {b : Board} (h : Reachable b) : ValidBoard b := by
  induction h with
  | init w h circles => exact initBoard_valid w h circles
  | step m _ hrun ih => exact (runMutator_stepOK ih m _ hrun).1

/-- C9: on every board reachable from an initial board by non-failing
mutator calls, the representation invariant holds, every confirmed
direction of every cell points to an in-bounds neighbor, and the
propagation worklist — whose confirmed-direction branch looks its neighbor
up without a bounds guard — never raises `KeyError`, for any staged change
set satisfying the staging invariant. -/
theorem reachable_no_keyerr (b : Board) (h : Reachable b) :
    ValidBoard b ∧
    (∀ c cell d, b.cellAt c = some cell → d ∈ cell.is_set → inGrid b (d.move c)) ∧
    (∀ (fuel : Nat) (q : List Coord) (ch : ChangeMap), ChInv b ch → QInv ch q →
      propGo b fuel q ch ≠ .error .keyErr) := by
  have hv := Reachable_valid h
  refine ⟨hv, ?_, ?_⟩
  · intro c cell d hc hd
    have hg := cellAt_some_inGrid hc
    obtain ⟨hInv, hEdge⟩ := valid_cellAt hv hc
    have hdE : d ∉ edges_at b.width b.height c.1 c.2 := by
      intro hmem
      have hmem2 : d ∈ cell.is_set ∩ cell.cannot_set :=
        Finset.mem_inter.mpr ⟨hd, hEdge hmem⟩
      rw [Inv_disjoint cell hInv] at hmem2
      exact Finset.not_mem_empty d hmem2
    exact move_inGrid hg hdE
  · intro fuel q ch hch hq
    exact (propGo_sound hv fuel q ch hch hq).1

theorem reachable_no_keyerr_witness :
    ValidBoard (initBoard 2 2 []) ∧
    (∀ c cell d, (initBoard 2 2 []).cellAt c = some cell → d ∈ cell.is_set →
      inGrid (initBoard 2 2 []) (d.move c)) ∧
    (∀ (fuel : Nat) (q : List Coord) (ch : ChangeMap), ChInv (initBoard 2 2 []) ch →
      QInv ch q → propGo (initBoard 2 2 []) fuel q ch ≠ .error .keyErr) :=
  reachable_no_keyerr (initBoard 2 2 []) (Reachable.init 2 2 [])

end Masyu
